import Mathlib

/-!
Radar: serial line framing, distance parsing, the sweep and blip model and the port
scanner.

A shallow embedding of `visuals/radar.c`.  Bytes are natural numbers, a C string is the
list of its bytes (the terminating NUL is the end of the list; a NUL inside the list stops
every scan of this file exactly as the terminator does, because it is neither whitespace
nor a digit nor a minus sign).
-/

namespace Radar

/-! ## Bytes and the C library functions used by the parser -/

/-- The bytes of a string literal, for readable inputs. -/
def bytes (s : String) : List Nat := s.toList.map Char.toNat

/-- The function `isspace` of `<ctype.h>` in the "C" locale: space, `\t`, `\n`, `\v`, `\f`, `\r`. -/
def isspace (c : Nat) : Bool := c == 32 || (9 ≤ c && c ≤ 13)

/-- The function `isdigit` of `<ctype.h>`: the characters `0` to `9`. -/
def isdigit (c : Nat) : Bool := 48 ≤ c && c ≤ 57

/-- The constant `LONG_MAX` of the Windows targets of the program (`long` has 32 bits). -/
def LONG_MAX : Int := 2147483647

/-- The constant `LONG_MIN` of the Windows targets of the program. -/
def LONG_MIN : Int := -2147483648

/-- The accumulation of decimal digits, most significant first, starting from `acc`. -/
def digitsValue : List Nat → Nat → Nat
  | [], acc => acc
  | d :: ds, acc => digitsValue ds (10 * acc + (d - 48))

/-- The call `strtol(s, &end, 10)` of the C library: skips whitespace, reads an optional sign and the
longest run of decimal digits, and saturates at `LONG_MIN`/`LONG_MAX`.  The result is the
value and `end - s`; when no digit is found no conversion is performed and `end == s`. -/
def strtol (s : List Nat) : Int × Nat :=
  let ws := s.takeWhile isspace
  let s1 := s.dropWhile isspace
  let neg := s1.head? == some 45
  let signLen := if s1.head? == some 45 || s1.head? == some 43 then 1 else 0
  let ds := (s1.drop signLen).takeWhile isdigit
  if ds.isEmpty then (0, 0)
  else
    let v : Int := if neg then -(digitsValue ds 0 : Int) else (digitsValue ds 0 : Int)
    let v := if v < LONG_MIN then LONG_MIN else if LONG_MAX < v then LONG_MAX else v
    (v, ws.length + signLen + ds.length)

/-- The function `parse_distance_cm(line, &cm)`: `none` is the return value 0, `some cm` is the return
value 1 with `*cmOut = cm`. -/
def parse_distance_cm (line : List Nat) : Option Int :=
  let line := line.dropWhile isspace
  if !(line.headD 0 == 45 || isdigit (line.headD 0)) then none
  else
    let (v, consumed) := strtol line
    if consumed == 0 then none
    else
      let v := if v < -1 then -1 else v
      let v := if v > 500 then 500 else v
      some v

/-- The decimal text of a natural number, without leading zeros. -/
def natText (n : Nat) : List Nat :=
  if n = 0 then [48] else (Nat.digits 10 n).reverse.map (· + 48)

/-- The decimal text of an integer: a minus sign for a negative number, then the digits. -/
def decimalText (v : Int) : List Nat :=
  (if v < 0 then [45] else []) ++ natText v.natAbs

/-- The number a list of decimal digit characters denotes (most significant first). -/
def decimalValue (ds : List Nat) : Nat :=
  Nat.ofDigits 10 (ds.reverse.map (· - 48))

/-- The clamp to the range of a distance sample. -/
def clampCm (v : Int) : Int := max (-1) (min 500 v)

/-- The text starts with a number the parser reads: a digit, or a minus sign directly
followed by a digit. -/
def startsNumber : List Nat → Bool
  | [] => false
  | c :: t => isdigit c || (c == 45 && isdigit (t.headD 0))

/-! ## The serial connection and the line framer -/

/-- The connection `SerialPort`: the handle (`none` is `NULL`), the accumulation buffer
`buf` (2048 bytes), the number `len` of bytes accumulated and the display name. -/
structure SerialPort where
  h : Option Nat
  buf : List Nat
  len : Int
  portName : List Nat
  deriving DecidableEq, Repr

/-- The bytes accumulated in the buffer: `buf[0 .. len)`. -/
def SerialPort.content (sp : SerialPort) : List Nat := sp.buf.take sp.len.toNat

/-- The call `memcpy(dst + off, src, n)` into an array `dst`, with `n` the length of `src`;
`none` when a byte would be written outside `dst`. -/
def memcpy_at (dst : List Nat) (off : Int) (src : List Nat) : Option (List Nat) :=
  if 0 ≤ off ∧ off.toNat + src.length ≤ dst.length then
    some (dst.take off.toNat ++ src ++ dst.drop (off.toNat + src.length))
  else none

/-- The call `memmove(buf, buf + src, n)`; `none` when the source or the destination range
leaves `buf`. -/
def memmove_front (buf : List Nat) (src n : Int) : Option (List Nat) :=
  if 0 ≤ src ∧ 0 ≤ n ∧ src.toNat + n.toNat ≤ buf.length then
    some ((buf.drop src.toNat).take n.toNat ++ buf.drop n.toNat)
  else none

/-- The scan `for (i = ...; i < sp->len; i++) if (sp->buf[i] == '\n')` from index `i` on:
the index of the first terminator, if any.  The loop makes at most `len` rounds, which is
the `fuel` it is started with. -/
def findNewline (buf : List Nat) (len : Int) : Nat → Nat → Option Nat
  | 0, _ => none
  | fuel + 1, i =>
    if (i : Int) < len then
      if buf.getD i 0 = 10 then some i else findNewline buf len fuel (i + 1)
    else none

/-- The first half of `serial_readline`, after a successful `ReadFile` that stored the
bytes `tmp`: `if (got > 0) { overflow guard; memcpy; len += got; }`.  `none` is a write
outside `sp->buf`. -/
def serial_append (sp : SerialPort) (tmp : List Nat) : Option SerialPort :=
  let got : Int := tmp.length
  if got > 0 then
    let len := if sp.len + got > 2048 then 0 else sp.len
    (memcpy_at sp.buf len tmp).map fun b => { sp with buf := b, len := len + got }
  else some sp

/-- The second half of `serial_readline`: the scan for the first terminator, the copy of
the line to `out` (the bytes `out[0 .. copyLen)`, followed there by a NUL) and the shift of
the remaining bytes to the front.  `none` is an access outside `sp->buf` or `out`; in the
result the line is `none` for the return value 0. -/
def serial_scan (sp : SerialPort) (outCap : Int) : Option (SerialPort × Option (List Nat)) :=
  match findNewline sp.buf sp.len sp.len.toNat 0 with
  | none => some (sp, none)
  | some i =>
    let lineLen : Int := i + 1
    let copyLen : Int := if lineLen < outCap - 1 then lineLen else outCap - 1
    if copyLen < 0 then none
    else
      (memmove_front sp.buf lineLen (sp.len - lineLen)).map fun b =>
        ({ sp with buf := b, len := sp.len - lineLen }, some (sp.buf.take copyLen.toNat))

/-- The function `serial_readline(sp, out, outCap)`.  `read` is what `ReadFile` did: `none`
when it failed, `some tmp` when it stored the bytes `tmp` (`got` is their number, at most
`sizeof(tmp) = 128`).  The outer `none` is an access outside `sp->buf` or `out`; otherwise
the result is the new connection state and the line copied to `out` (`none` for the return
value 0). -/
def serial_readline (sp : SerialPort) (read : Option (List Nat)) (outCap : Int) :
    Option (SerialPort × Option (List Nat)) :=
  match read with
  | none => some (sp, none)
  | some tmp => (serial_append sp tmp).bind fun sp1 => serial_scan sp1 outCap

/-- The state `serial_open` leaves on success: the buffer zeroed by `memset`, no byte
accumulated. -/
def serial_open_state (handle : Nat) (comName : List Nat) : SerialPort :=
  { h := some handle, buf := List.replicate 2048 0, len := 0, portName := comName.take 31 }

/-- The connection invariant: the buffer has its 2048 bytes and `len` is inside it. -/
def SerialPort.WF (sp : SerialPort) : Prop :=
  sp.buf.length = 2048 ∧ 0 ≤ sp.len ∧ sp.len ≤ 2048

/-- The first newline-terminated segment of a byte sequence and what follows it. -/
def splitLine : List Nat → Option (List Nat × List Nat)
  | [] => none
  | b :: t =>
    if b = 10 then some ([10], t)
    else (splitLine t).map fun p => (b :: p.1, p.2)

/-- The accumulated bytes after a read of `tmp` behind the bytes `c`: the old bytes are
dropped when both together exceed the capacity. -/
def appendRead (c tmp : List Nat) : List Nat :=
  if c.length + tmp.length > 2048 then tmp else c ++ tmp

/-- The line framer on the accumulated bytes alone: the line handed out (cut to
`outCap - 1` bytes) and the bytes that stay accumulated. -/
def frameRead (c tmp : List Nat) (outCap : Int) : Option (List Nat) × List Nat :=
  match splitLine (appendRead c tmp) with
  | none => (none, appendRead c tmp)
  | some (seg, rest) => (some (seg.take (outCap - 1).toNat), rest)

/-- Successive reads on the accumulated bytes alone, with `outCap = 256`. -/
def frameReads : List Nat → List (List Nat) → List (List Nat) × List Nat
  | c, [] => ([], c)
  | c, tmp :: rest =>
    let r := frameRead c tmp 256
    let rs := frameReads r.2 rest
    (r.1.toList ++ rs.1, rs.2)

/-- Successive `serial_readline` calls, one read result per call, with `outCap = 256` as in
`main`: the lines returned, in order, and the final connection state. -/
def readlines : SerialPort → List (Option (List Nat)) → Option (List (List Nat) × SerialPort)
  | sp, [] => some ([], sp)
  | sp, r :: rs =>
    match serial_readline sp r 256 with
    | none => none
    | some (sp1, line) =>
      match readlines sp1 rs with
      | none => none
      | some (lines, sp2) => some (line.toList ++ lines, sp2)

/-- No call of the run triggers the overflow guard: the bytes read always fit behind the
bytes accumulated. -/
def noOverflow : SerialPort → List (List Nat) → Bool
  | _, [] => true
  | sp, c :: cs =>
    decide (sp.len + c.length ≤ 2048) &&
      match serial_readline sp (some c) 256 with
      | none => true
      | some (sp1, _) => noOverflow sp1 cs

/-- Every newline-terminated segment of the stream has at most `n` bytes, terminator
included. -/
def LinesAtMost (n : Nat) (stream : List Nat) : Prop :=
  ∀ p q r, stream = p ++ q ++ 10 :: r → 10 ∉ q → q.length + 1 ≤ n

/-- The connection after `serial_open` and two reads of 128 and 127 bytes `A` without a
terminator: 255 bytes accumulated. -/
def longLineState : SerialPort :=
  { h := some 1, buf := List.replicate 255 65 ++ List.replicate 1793 0, len := 255,
    portName := bytes "COM3" }

/-- A connection with 2000 bytes accumulated and no terminator among them. -/
def nearlyFullState : SerialPort :=
  { h := some 1, buf := List.replicate 2048 65, len := 2000, portName := bytes "COM3" }

/-! ## The sweep and blip model of the main loop

The sample handling, the sweep update and the purge of the main loop.  The arithmetic on
the values of type `float` is a parameter of the model (`FloatOps`); it is instantiated by
the single-precision arithmetic of the program (`f32ops`) and, for runs in which every
operand and result is representable, by exact rational arithmetic (`exactOps`). -/

/-- The `float` arithmetic of the main loop, kept as a parameter: `F` is the type of the
`float` values, `ofInt` the conversion `(float)n` (also used for the literals `0.0f`, `2.0f`
and `180.0f`), and `add`, `sub`, `mul`, `le` the operations `+`, `-`, `*`, `<=`. -/
structure FloatOps (F : Type) where
  ofInt : Int → F
  add : F → F → F
  sub : F → F → F
  mul : F → F → F
  le : F → F → Bool

/-- Exact arithmetic on rational numbers: what the `float` operations compute whenever the
operands and the result are representable. -/
def exactOps : FloatOps ℚ where
  ofInt := fun n => (n : ℚ)
  add := fun a b => a + b
  sub := fun a b => a - b
  mul := fun a b => a * b
  le := fun a b => decide (a ≤ b)

/-- The values of the type `float` (IEEE 754 binary32): the finite ones, given by their
rational value (the two zeros are not told apart, no operation of the program does), the
two infinities and NaN. -/
inductive F32 where
  | fin (q : ℚ)
  | pinf
  | ninf
  | nan
  deriving DecidableEq

/-- The integer nearest to `x`, the even one of the two when `x` is half-way. -/
def roundHalfEven (x : ℚ) : Int :=
  if x - ⌊x⌋ < 1 / 2 then ⌊x⌋
  else if 1 / 2 < x - ⌊x⌋ then ⌊x⌋ + 1
  else if ⌊x⌋ % 2 = 0 then ⌊x⌋ else ⌊x⌋ + 1

/-- The exponent of the unit in the last place of the binary32 numbers around `q`: 24
significant bits, the exponent of the leading bit not below -126 (subnormal numbers). -/
def ulpExp (q : ℚ) : Int := max (Int.log 2 |q|) (-126) - 23

/-- The rounding of a real result to `float`: to the nearest binary32 number, ties to
even, and to an infinity when the rounded value does not fit. -/
def roundF32 (q : ℚ) : F32 :=
  if q = 0 then .fin 0
  else
    let r : ℚ := (roundHalfEven (q / 2 ^ ulpExp q) : ℚ) * 2 ^ ulpExp q
    if 2 ^ 128 ≤ r then .pinf else if r ≤ -2 ^ 128 then .ninf else .fin r

/-- The negation of a `float`. -/
def F32.neg : F32 → F32
  | .fin q => .fin (-q)
  | .pinf => .ninf
  | .ninf => .pinf
  | .nan => .nan

/-- The sum of two `float` values. -/
def F32.add : F32 → F32 → F32
  | .fin a, .fin b => roundF32 (a + b)
  | .fin _, .pinf => .pinf
  | .fin _, .ninf => .ninf
  | .pinf, .fin _ => .pinf
  | .pinf, .pinf => .pinf
  | .ninf, .fin _ => .ninf
  | .ninf, .ninf => .ninf
  | _, _ => .nan

/-- The product of an infinity of the given sign with the finite value `a`. -/
def F32.mulInf (positive : Bool) (a : ℚ) : F32 :=
  if a = 0 then .nan
  else if (decide (0 < a)) == positive then .pinf else .ninf

/-- The product of two `float` values. -/
def F32.mul : F32 → F32 → F32
  | .fin a, .fin b => roundF32 (a * b)
  | .fin a, .pinf => F32.mulInf true a
  | .fin a, .ninf => F32.mulInf false a
  | .pinf, .fin b => F32.mulInf true b
  | .ninf, .fin b => F32.mulInf false b
  | .pinf, .pinf => .pinf
  | .pinf, .ninf => .ninf
  | .ninf, .pinf => .ninf
  | .ninf, .ninf => .pinf
  | _, _ => .nan

/-- The comparison `<=` of two `float` values; it is false when one of them is NaN. -/
def F32.le : F32 → F32 → Bool
  | .fin a, .fin b => decide (a ≤ b)
  | .fin _, .pinf => true
  | .ninf, .fin _ => true
  | .ninf, .ninf => true
  | .ninf, .pinf => true
  | .pinf, .pinf => true
  | _, _ => false

/-- The single-precision arithmetic of the program: every operation is rounded to
binary32 (the arithmetic of the x86-64 builds, where no intermediate result is kept in a
wider format), `(float)n` rounds the integer `n`, and `a - b` is `a + (-b)`. -/
def f32ops : FloatOps F32 where
  ofInt := fun n => roundF32 (n : ℚ)
  add := F32.add
  sub := fun a b => F32.add a (F32.neg b)
  mul := F32.mul
  le := F32.le

/-- The record `Blip`. -/
structure Blip (F : Type) where
  angleDeg : F
  cm : F
  born : F
  deriving DecidableEq, Repr

/-- The variables of `main` that the loop updates: the array `blips` (2048 entries),
`blipCount`, the sweep angle and direction, and `latestCm`. -/
structure Model (F : Type) where
  blips : List (Blip F)
  blipCount : Nat
  sweep : F
  sweepDir : Int
  latestCm : Int

/-- The blips stored: `blips[0 .. blipCount)`. -/
def Model.stored {F : Type} (m : Model F) : List (Blip F) := m.blips.take m.blipCount

/-- The body of the loop `while (serial_readline(&sp, line, sizeof(line)))` for one framed
line, at the time `now` of the frame. -/
def handleLine {F : Type} (ops : FloatOps F) (now : F) (m : Model F) (line : List Nat) :
    Model F :=
  match parse_distance_cm line with
  | none => m
  | some cm =>
    let m := { m with latestCm := cm }
    if cm ≥ 0 then
      if m.blipCount < 2048 then
        { m with
          blips := m.blips.set m.blipCount ⟨m.sweep, ops.ofInt cm, now⟩
          blipCount := m.blipCount + 1 }
      else
        { m with blips := m.blips.set 0 ⟨m.sweep, ops.ofInt cm, now⟩ }
    else m

/-- A framed line together with the sweep angle and the time current when the loop body
handles it. -/
structure SampleEvent (F : Type) where
  sweep : F
  now : F
  line : List Nat

/-- The loop body for a line handled when the sweep angle is `e.sweep` and the time is
`e.now`. -/
def handleEvent {F : Type} (ops : FloatOps F) (m : Model F) (e : SampleEvent F) : Model F :=
  handleLine ops e.now { m with sweep := e.sweep } e.line

/-- A sequence of lines, each handled at its own sweep angle and time. -/
def handleEvents {F : Type} (ops : FloatOps F) (m : Model F) (es : List (SampleEvent F)) :
    Model F :=
  es.foldl (handleEvent ops) m

/-- The update of the virtual sweep angle in a frame, for the value `sweepSpeed` of the
speed variable (80 in `main`) and the frame time `dt`:
`sweep += sweepDir * sweepSpeed * dt;` followed by the two boundary tests. -/
def updateSweep {F : Type} (ops : FloatOps F) (sweepSpeed dt : F) (m : Model F) : Model F :=
  let m := { m with
    sweep := ops.add m.sweep (ops.mul (ops.mul (ops.ofInt m.sweepDir) sweepSpeed) dt) }
  let m := if ops.le (ops.ofInt 180) m.sweep then
      { m with sweep := ops.ofInt 180, sweepDir := -1 } else m
  if ops.le m.sweep (ops.ofInt 0) then { m with sweep := ops.ofInt 0, sweepDir := 1 } else m

/-- The test `now - blips[i].born <= life` with `life = 2.0f`. -/
def alive {F : Type} (ops : FloatOps F) (now : F) (b : Blip F) : Bool :=
  ops.le (ops.sub now b.born) (ops.ofInt 2)

/-- The loop `for (i = ...; i < blipCount; i++) if (alive) blips[write++] = blips[i];` from
the index `i` and the write index `write` on: the array and the final `write`.  The loop
makes at most `blipCount` rounds, which is the `fuel` it is started with. -/
def purgeLoop {F : Type} (ops : FloatOps F) (now : F) (blipCount : Nat) :
    Nat → Nat → Nat → List (Blip F) → List (Blip F) × Nat
  | 0, _, write, blips => (blips, write)
  | fuel + 1, i, write, blips =>
    if i < blipCount then
      match blips[i]? with
      | none => (blips, write)
      | some b =>
        if alive ops now b then purgeLoop ops now blipCount fuel (i + 1) (write + 1) (blips.set write b)
        else purgeLoop ops now blipCount fuel (i + 1) write blips
    else (blips, write)

/-- The block "fade out old blips" of a frame. -/
def purge {F : Type} (ops : FloatOps F) (now : F) (m : Model F) : Model F :=
  let r := purgeLoop ops now m.blipCount m.blipCount 0 0 m.blips
  { m with blips := r.1, blipCount := r.2 }

/-- The blip the loop body stores for a line: none for a rejected line or a negative
value. -/
def blipOf {F : Type} (ops : FloatOps F) (e : SampleEvent F) : Option (Blip F) :=
  match parse_distance_cm e.line with
  | none => none
  | some cm => if 0 ≤ cm then some ⟨e.sweep, ops.ofInt cm, e.now⟩ else none

/-- The blips a sequence of lines calls for, in order. -/
def newBlips {F : Type} (ops : FloatOps F) (es : List (SampleEvent F)) : List (Blip F) :=
  es.filterMap (blipOf ops)

/-- The value of the last line of the sequence that the parser accepts, if any. -/
def lastAccepted {F : Type} (es : List (SampleEvent F)) : Option Int :=
  (es.filterMap fun e => parse_distance_cm e.line).getLast?

/-- The variables at the start of the main loop: the array not yet written (its content is
whatever `init` is), no blip, angle 0, direction +1, no reading. -/
def initialModel {F : Type} (ops : FloatOps F) (init : List (Blip F)) : Model F :=
  { blips := init, blipCount := 0, sweep := ops.ofInt 0, sweepDir := 1, latestCm := -1 }

/-- The line `30` handled at the angle 0 and the time `k / 2048`. -/
def tickEvent (k : Nat) : SampleEvent ℚ :=
  { sweep := 0, now := (k : ℚ) / 2048, line := bytes "30\n" }

/-- The blip `tickEvent k` stores. -/
def tickBlip (k : Nat) : Blip ℚ := ⟨0, 30, (k : ℚ) / 2048⟩

/-- The model at the start of the main loop in exact arithmetic, the array zeroed. -/
def startModel : Model ℚ := initialModel exactOps (List.replicate 2048 ⟨0, 0, 0⟩)

/-- A sweep state just below the upper boundary, moving up: the angle is the binary32
number `180 - 2^-16`. -/
def risingModel : Model F32 :=
  { blips := List.replicate 2048 ⟨.fin 0, .fin 0, .fin 0⟩, blipCount := 0,
    sweep := .fin (180 - 1 / 2 ^ 16), sweepDir := 1, latestCm := -1 }

/-- A sweep state at the upper boundary, moving down. -/
def fallingModel : Model F32 :=
  { blips := List.replicate 2048 ⟨.fin 0, .fin 0, .fin 0⟩, blipCount := 0,
    sweep := .fin 180, sweepDir := -1, latestCm := -1 }

/-- A sweep state at the angle 90, moving up. -/
def midModel : Model F32 :=
  { blips := List.replicate 2048 ⟨.fin 0, .fin 0, .fin 0⟩, blipCount := 0,
    sweep := .fin 90, sweepDir := 1, latestCm := -1 }

/-- A model in single-precision arithmetic with one blip stored, created at the time 0. -/
def expiryModel32 : Model F32 :=
  { blips := ⟨.fin 0, .fin 30, .fin 0⟩ :: List.replicate 2047 ⟨.fin 0, .fin 0, .fin 0⟩,
    blipCount := 1, sweep := .fin 0, sweepDir := 1, latestCm := 30 }

/-! ## The port scanner -/

theorem isspace_not_digit {c : Nat} (h : isdigit c = true) : isspace c = false := by
  simp only [isdigit, isspace, Bool.and_eq_true, decide_eq_true_eq, Bool.or_eq_false_iff,
    beq_eq_false_iff_ne, ne_eq, Bool.and_eq_false_iff, decide_eq_false_iff_not] at *
  omega

theorem decimalValue_nil : decimalValue [] = 0 := by
  unfold decimalValue
  simp only [List.reverse_nil, List.map_nil, Nat.ofDigits_nil]

theorem decimalValue_cons (d : Nat) (ds : List Nat) :
    decimalValue (d :: ds) = (d - 48) * 10 ^ ds.length + decimalValue ds := by
  unfold decimalValue
  simp only [List.reverse_cons, List.map_append, List.map_cons,
      List.map_nil, Nat.ofDigits_append, Nat.ofDigits_singleton, List.length_map,
      List.length_reverse]
  ring

theorem digitsValue_eq (ds : List Nat) (acc : Nat) :
    digitsValue ds acc = acc * 10 ^ ds.length + decimalValue ds := by
  induction ds generalizing acc with
  | nil => simp only [digitsValue, decimalValue_nil, List.length_nil, pow_zero, mul_one, add_zero]
  | cons d ds ih =>
    simp only [digitsValue, ih, decimalValue_cons, List.length_cons]
    ring

theorem saturate_clamp (v : Int) :
    (let w := if v < LONG_MIN then LONG_MIN else if LONG_MAX < v then LONG_MAX else v
     let w := if w < -1 then -1 else w
     if w > 500 then 500 else w) = clampCm v := by
  simp only [LONG_MIN, LONG_MAX, clampCm]
  split_ifs <;> omega

/-- The parser in closed form: after the leading whitespace an optional minus sign and the
longest run of digits; no digit there is a rejection. -/
theorem parse_distance_cm_eq (line : List Nat) :
    parse_distance_cm line =
      (let l := line.dropWhile isspace
       let neg := l.head? == some 45
       let ds := (if neg then l.drop 1 else l).takeWhile isdigit
       if ds = [] then none
       else some (clampCm (if neg then -(decimalValue ds : Int) else (decimalValue ds : Int)))) := by
  have hsat := saturate_clamp
  simp only at hsat
  rcases hl : line.dropWhile isspace with _ | ⟨c, t⟩
  · simp [parse_distance_cm, hl, isdigit]
  · have hc : isspace c = false := by
      have := List.head_dropWhile_not isspace line (by simp [hl])
      simpa [hl] using this
    by_cases h45 : c = 45
    · subst h45
      simp only [parse_distance_cm, hl, strtol, List.headD_cons, beq_self_eq_true, Bool.true_or,
        Bool.not_true, Bool.false_eq_true, ↓reduceIte, List.head?_cons, List.drop_succ_cons,
        List.drop_zero, List.dropWhile_cons, hc, List.takeWhile_cons, List.length_nil, zero_add,
        digitsValue_eq, zero_mul, List.isEmpty_eq_true]
      by_cases hds : List.takeWhile isdigit t = []
      · simp [hds]
      · have hlen : 0 < (List.takeWhile isdigit t).length := List.length_pos.mpr hds
        simp only [hds, ↓reduceIte, hsat]
        simp
    · have h45b : (c == 45) = false := by simpa using h45
      by_cases hd : isdigit c = true
      · have h43 : (c == 43) = false := by
          simp only [isdigit, Bool.and_eq_true, decide_eq_true_eq] at hd
          simp only [beq_eq_false_iff_ne, ne_eq]
          omega
        have e45 : ((c :: t).head? == some 45) = false := by simpa using h45
        have e43 : ((c :: t).head? == some 43) = false := by simpa using h43
        have hdrop : List.dropWhile isspace (c :: t) = c :: t := by simp [hc]
        have htake : List.takeWhile isspace (c :: t) = [] := by simp [hc]
        have hdig : List.takeWhile isdigit (c :: t) = c :: List.takeWhile isdigit t := by simp [hd]
        simp only [parse_distance_cm, hl, strtol, List.headD_cons, h45b, hd, Bool.or_true,
          Bool.not_true, Bool.false_eq_true, ↓reduceIte, hdrop, htake, e45, e43, hdig,
          Bool.or_self, List.drop_zero, List.isEmpty_cons, digitsValue_eq, zero_mul, hsat,
          List.length_cons, List.length_nil, zero_add]
        simp
      · simp [parse_distance_cm, hl, h45b, hd, h45]

theorem takeWhile_isdigit_token (ds rest : List Nat) (hds : ∀ d ∈ ds, isdigit d = true)
    (hrest : ∀ c, rest.head? = some c → isdigit c = false) :
    (ds ++ rest).takeWhile isdigit = ds := by
  rw [List.takeWhile_append_of_pos hds]
  cases rest with
  | nil => simp
  | cons c t => simp [hrest c rfl]

/-- A line made of whitespace, an optional minus sign, a non-empty run of digits and a rest
that does not start with a digit is accepted with the clamped value of the digits. -/
theorem parse_distance_cm_token (ws ds rest : List Nat) (neg : Bool)
    (hws : ∀ c ∈ ws, isspace c = true) (hne : ds ≠ []) (hds : ∀ d ∈ ds, isdigit d = true)
    (hrest : ∀ c, rest.head? = some c → isdigit c = false) :
    parse_distance_cm (ws ++ ((if neg then [45] else []) ++ ds ++ rest)) =
      some (clampCm (if neg then -(decimalValue ds : Int) else (decimalValue ds : Int))) := by
  obtain ⟨d, ds', rfl⟩ := List.exists_cons_of_ne_nil hne
  have hd : isdigit d = true := hds d (List.mem_cons_self _ _)
  have hd45 : d ≠ 45 := by
    simp only [isdigit, Bool.and_eq_true, decide_eq_true_eq] at hd
    omega
  rw [parse_distance_cm_eq, List.dropWhile_append_of_pos hws]
  cases neg with
  | true =>
    have h1 : List.dropWhile isspace (([45] : List Nat) ++ (d :: ds') ++ rest)
        = 45 :: ((d :: ds') ++ rest) := by
      simp [isspace]
    simp only [↓reduceIte, h1, List.head?_cons, beq_self_eq_true, List.drop_succ_cons,
      List.drop_zero, takeWhile_isdigit_token _ _ hds hrest]
    simp
  | false =>
    have h1 : List.dropWhile isspace (([] : List Nat) ++ (d :: ds') ++ rest)
        = (d :: ds') ++ rest := by
      simp [isspace_not_digit hd]
    have h2 : (((d :: ds') ++ rest).head? == some 45) = false := by simpa using hd45
    simp only [Bool.false_eq_true, ↓reduceIte, h1, h2, takeWhile_isdigit_token _ _ hds hrest]
    simp

theorem natText_ne_nil (n : Nat) : natText n ≠ [] := by
  unfold natText
  split_ifs with h
  · simp
  · simpa [Nat.digits_eq_nil_iff_eq_zero] using h

theorem natText_isdigit (n : Nat) : ∀ d ∈ natText n, isdigit d = true := by
  unfold natText
  split_ifs with h
  · simp [isdigit]
  · intro d hd
    simp only [List.map_reverse, List.mem_reverse, List.mem_map] at hd
    obtain ⟨a, ha, rfl⟩ := hd
    have := Nat.digits_lt_base (by norm_num : 1 < 10) ha
    simp only [isdigit, Bool.and_eq_true, decide_eq_true_eq]
    omega

theorem decimalValue_natText (n : Nat) : decimalValue (natText n) = n := by
  unfold natText decimalValue
  split_ifs with h
  · simp [h]
  · have : (List.map (fun x => x - 48) (List.map (fun x => x + 48) (Nat.digits 10 n).reverse).reverse)
        = Nat.digits 10 n := by
      simp [List.map_reverse, Function.comp_def]
    rw [this, Nat.ofDigits_digits]

theorem clampCm_bounds (v : Int) :
    -1 ≤ clampCm v ∧ clampCm v ≤ 500 ∧ (-1 ≤ v → v ≤ 500 → clampCm v = v) ∧
      (v < -1 → clampCm v = -1) ∧ (500 < v → clampCm v = 500) := by
  unfold clampCm
  omega

/-- C1. For every integer `v`, every run `ws` of whitespace and every trailing text `rest`
that does not start with a digit, `parse_distance_cm` accepts the line
`ws ++ decimalText v ++ rest`; the value it returns lies in `[-1, 500]`, is `v` itself when
`-1 ≤ v ≤ 500`, is `-1` when `v < -1` and is `500` when `500 < v`. -/
theorem parse_distance_cm_decimal (v : Int) (ws rest : List Nat)
    (hws : ∀ c ∈ ws, isspace c = true)
    (hrest : ∀ c, rest.head? = some c → isdigit c = false) :
    ∃ r, parse_distance_cm (ws ++ decimalText v ++ rest) = some r ∧
      -1 ≤ r ∧ r ≤ 500 ∧ (-1 ≤ v → v ≤ 500 → r = v) ∧ (v < -1 → r = -1) ∧
      (500 < v → r = 500) := by
  have key := parse_distance_cm_token ws (natText v.natAbs) rest (decide (v < 0)) hws
    (natText_ne_nil _) (natText_isdigit _) hrest
  have hval : (if decide (v < 0) = true then -((decimalValue (natText v.natAbs) : Nat) : Int)
      else ((decimalValue (natText v.natAbs) : Nat) : Int)) = v := by
    rw [decimalValue_natText]
    split_ifs with h
    · simp only [decide_eq_true_eq] at h; omega
    · simp only [decide_eq_true_eq] at h; omega
  rw [hval] at key
  refine ⟨clampCm v, ?_, clampCm_bounds v⟩
  rw [← key]
  simp [decimalText, List.append_assoc]

/-- A line of one blank, the text of 37 and a carriage return and newline is accepted with
the value 37. -/
theorem parse_distance_cm_decimal_witness :
    ∃ r, parse_distance_cm ([32] ++ decimalText 37 ++ [13, 10]) = some r ∧
      -1 ≤ r ∧ r ≤ 500 ∧ (-1 ≤ (37 : Int) → (37 : Int) ≤ 500 → r = 37) ∧
      ((37 : Int) < -1 → r = -1) ∧ (500 < (37 : Int) → r = 500) :=
  parse_distance_cm_decimal 37 [32] [13, 10] (by decide) (by decide)

theorem head_dropWhile_isdigit (l : List Nat) :
    ∀ c, (l.dropWhile isdigit).head? = some c → isdigit c = false := by
  induction l with
  | nil => simp
  | cons a t ih =>
    intro c
    by_cases ha : isdigit a = true
    · simpa [List.dropWhile_cons, ha] using ih c
    · simp only [List.dropWhile_cons, ha, Bool.false_eq_true, ↓reduceIte, List.head?_cons,
        Option.some.injEq]
      rintro rfl
      simpa using ha

/-- C2, as stated, fails. The line `-abc` starts with a minus sign and is rejected all
the same, so rejection is not equivalent to "the first character after the whitespace is
neither a digit nor a minus sign". -/
theorem parse_distance_cm_minus_rejected :
    ¬ (parse_distance_cm (bytes "-abc") = none ↔
        ¬ (((bytes "-abc").dropWhile isspace).headD 0 = 45 ∨
            isdigit (((bytes "-abc").dropWhile isspace).headD 0) = true)) := by
  decide

/-- C2, amended. A line is rejected exactly when, after the leading whitespace, it
starts neither with a digit nor with a minus sign directly followed by a digit.  An accepted
line is, after the whitespace, an optional minus sign, the longest non-empty run of digits
and a rest, and its value is the clamped value of that token.  In particular `  -5 abc`
gives -1, `abc` is rejected, `501` gives 500 and `-999` gives -1. -/
theorem parse_distance_cm_reject_iff (line : List Nat) :
    (parse_distance_cm line = none ↔ startsNumber (line.dropWhile isspace) = false) ∧
    (∀ r, parse_distance_cm line = some r →
      ∃ (neg : Bool) (ds rest : List Nat),
        line.dropWhile isspace = (if neg then [45] else []) ++ ds ++ rest ∧
        ds ≠ [] ∧ (∀ d ∈ ds, isdigit d = true) ∧
        (∀ c, rest.head? = some c → isdigit c = false) ∧
        r = clampCm (if neg then -(decimalValue ds : Int) else (decimalValue ds : Int))) ∧
    parse_distance_cm (bytes "  -5 abc") = some (-1) ∧
    parse_distance_cm (bytes "abc") = none ∧
    parse_distance_cm (bytes "501") = some 500 ∧
    parse_distance_cm (bytes "-999") = some (-1) := by
  refine ⟨?_, ?_, by decide, by decide, by decide, by decide⟩
  · rw [parse_distance_cm_eq]
    rcases hl : line.dropWhile isspace with _ | ⟨c, t⟩
    · simp [startsNumber]
    · by_cases h45 : c = 45
      · subst h45
        cases t with
        | nil => simp [startsNumber, isdigit]
        | cons d t =>
          by_cases hd : isdigit d = true <;> simp [startsNumber, isdigit, hd]
      · by_cases hd : isdigit c = true <;> simp [startsNumber, h45, hd]
  · intro r hr
    rw [parse_distance_cm_eq] at hr
    simp only at hr
    rcases hl : line.dropWhile isspace with _ | ⟨c, t⟩
    · simp [hl] at hr
    · rw [hl] at hr
      by_cases h45 : c = 45
      · subst h45
        simp only [List.head?_cons, beq_self_eq_true, ↓reduceIte, List.drop_succ_cons,
          List.drop_zero] at hr
        by_cases hds : List.takeWhile isdigit t = []
        · simp [hds] at hr
        · simp only [hds, ↓reduceIte, Option.some.injEq] at hr
          refine ⟨true, t.takeWhile isdigit, t.dropWhile isdigit, ?_, hds, ?_, ?_, ?_⟩
          · simp [List.takeWhile_append_dropWhile]
          · intro d hd
            exact List.mem_takeWhile_imp hd
          · exact head_dropWhile_isdigit t
          · simpa using hr.symm
      · have h45b : ((c :: t).head? == some 45) = false := by simpa using h45
        simp only [h45b, Bool.false_eq_true, ↓reduceIte] at hr
        by_cases hds : List.takeWhile isdigit (c :: t) = []
        · simp [hds] at hr
        · simp only [hds, ↓reduceIte, Option.some.injEq] at hr
          refine ⟨false, (c :: t).takeWhile isdigit, (c :: t).dropWhile isdigit, ?_, hds, ?_,
            ?_, ?_⟩
          · simp [List.takeWhile_append_dropWhile]
          · intro d hd
            exact List.mem_takeWhile_imp hd
          · exact head_dropWhile_isdigit (c :: t)
          · simpa using hr.symm

/-- The line `42 cm` is accepted, so the second part of the statement applies to it. -/
theorem parse_distance_cm_reject_iff_witness :
    parse_distance_cm (bytes "42 cm") = some 42 ∧
    ∃ (neg : Bool) (ds rest : List Nat),
        (bytes "42 cm").dropWhile isspace = (if neg then [45] else []) ++ ds ++ rest ∧
        ds ≠ [] ∧ (∀ d ∈ ds, isdigit d = true) ∧
        (∀ c, rest.head? = some c → isdigit c = false) ∧
        (42 : Int) = clampCm (if neg then -(decimalValue ds : Int) else (decimalValue ds : Int)) :=
  ⟨by decide, (parse_distance_cm_reject_iff (bytes "42 cm")).2.1 42 (by decide)⟩

/-! ## The line framer -/

theorem findNewline_found (buf : List Nat) (len : Int) (k : Nat) (hk : (k : Int) < len)
    (h10 : buf.getD k 0 = 10) (hpre : ∀ j < k, buf.getD j 0 ≠ 10) :
    ∀ (fuel i : Nat), i ≤ k → k < i + fuel → findNewline buf len fuel i = some k := by
  intro fuel
  induction fuel with
  | zero => intro i h1 h2; omega
  | succ f ih =>
    intro i h1 h2
    have hi : (i : Int) < len := by omega
    rw [findNewline, if_pos hi]
    by_cases hik : i = k
    · subst hik
      rw [if_pos h10]
    · rw [if_neg (hpre i (by omega))]
      exact ih (i + 1) (by omega) (by omega)

theorem findNewline_none (buf : List Nat) (len : Int)
    (hno : ∀ j : Nat, (j : Int) < len → buf.getD j 0 ≠ 10) :
    ∀ (fuel i : Nat), findNewline buf len fuel i = none := by
  intro fuel
  induction fuel with
  | zero => intro i; rfl
  | succ f ih =>
    intro i
    rw [findNewline]
    split_ifs with h1 h2
    · exact absurd h2 (hno i h1)
    · exact ih (i + 1)
    · rfl

theorem splitLine_eq_none {c : List Nat} : splitLine c = none ↔ 10 ∉ c := by
  induction c with
  | nil => simp [splitLine]
  | cons b t ih =>
    by_cases hb : b = 10
    · simp [splitLine, hb]
    · simp [splitLine, hb, ih, Ne.symm hb]

theorem splitLine_eq_some {c seg rest : List Nat} :
    splitLine c = some (seg, rest) ↔
      ∃ pre, 10 ∉ pre ∧ seg = pre ++ [10] ∧ c = pre ++ 10 :: rest := by
  induction c generalizing seg with
  | nil => simp [splitLine]
  | cons b t ih =>
    by_cases hb : b = 10
    · subst hb
      simp only [splitLine, ↓reduceIte, Option.some.injEq, Prod.mk.injEq]
      constructor
      · rintro ⟨rfl, rfl⟩
        exact ⟨[], by simp, rfl, rfl⟩
      · rintro ⟨pre, hpre, rfl, h⟩
        cases pre with
        | nil => simpa using h
        | cons a p =>
          simp only [List.cons_append, List.cons.injEq] at h
          simp [← h.1] at hpre
    · simp only [splitLine, hb, ↓reduceIte, Option.map_eq_some', Prod.mk.injEq, Prod.exists]
      constructor
      · rintro ⟨s, r, hs, rfl, rfl⟩
        obtain ⟨pre, hpre, rfl, rfl⟩ := ih.mp hs
        exact ⟨b :: pre, by simp [hpre, Ne.symm hb], rfl, rfl⟩
      · rintro ⟨pre, hpre, rfl, h⟩
        cases pre with
        | nil => simp at h; exact absurd h.1 hb
        | cons a p =>
          simp only [List.cons_append, List.cons.injEq] at h
          obtain ⟨rfl, rfl⟩ := h
          refine ⟨p ++ [10], rest, ih.mpr ⟨p, ?_, rfl, rfl⟩, rfl, rfl⟩
          simp only [List.mem_cons, not_or] at hpre
          exact hpre.2

theorem content_length {sp : SerialPort} (hwf : sp.WF) : sp.content.length = sp.len.toNat := by
  obtain ⟨h1, h2, h3⟩ := hwf
  simp only [SerialPort.content, List.length_take]
  omega

/-- The append half on a well-formed connection: no write leaves the buffer, the invariant
is kept and the accumulated bytes are those of `appendRead`. -/
theorem serial_append_frame (sp : SerialPort) (tmp : List Nat) (hwf : sp.WF)
    (htmp : tmp.length ≤ 128) :
    ∃ sp1, serial_append sp tmp = some sp1 ∧ sp1.WF ∧
      sp1.content = appendRead sp.content tmp ∧ sp1.h = sp.h ∧ sp1.portName = sp.portName := by
  have hlen := content_length hwf
  obtain ⟨h1, h2, h3⟩ := hwf
  by_cases hgot : (tmp.length : Int) > 0
  · simp only [serial_append, hgot, ↓reduceIte]
    by_cases hov : sp.len + (tmp.length : Int) > 2048
    · have hm : memcpy_at sp.buf 0 tmp
          = some (sp.buf.take 0 ++ tmp ++ sp.buf.drop (0 + tmp.length)) := by
        simp only [memcpy_at, Int.toNat_zero]
        rw [if_pos]
        constructor <;> omega
      simp only [hov, ↓reduceIte, hm, Option.map_some']
      refine ⟨_, rfl, ⟨?_, ?_, ?_⟩, ?_, rfl, rfl⟩
      · simp only [List.take_zero, List.nil_append, zero_add, List.length_append,
          List.length_drop]
        omega
      · show (0 : Int) ≤ 0 + (tmp.length : Int)
        omega
      · show 0 + (tmp.length : Int) ≤ 2048
        omega
      · have : appendRead sp.content tmp = tmp := by
          simp only [appendRead, hlen]
          rw [if_pos]
          omega
        rw [this]
        simp [SerialPort.content]
    · have hm : memcpy_at sp.buf sp.len tmp
          = some (sp.buf.take sp.len.toNat ++ tmp ++ sp.buf.drop (sp.len.toNat + tmp.length)) := by
        simp only [memcpy_at]
        rw [if_pos]
        constructor <;> omega
      simp only [hov, ↓reduceIte, hm, Option.map_some']
      refine ⟨_, rfl, ⟨?_, ?_, ?_⟩, ?_, rfl, rfl⟩
      · simp only [List.length_append, List.length_take, List.length_drop]
        omega
      · show (0 : Int) ≤ sp.len + (tmp.length : Int)
        omega
      · show sp.len + (tmp.length : Int) ≤ 2048
        omega
      · have : appendRead sp.content tmp = sp.content ++ tmp := by
          simp only [appendRead, hlen]
          rw [if_neg]
          omega
        rw [this]
        have e : (sp.len + (tmp.length : Int)).toNat
            = (sp.buf.take sp.len.toNat ++ tmp).length := by
          simp only [List.length_append, List.length_take]
          omega
        simp only [SerialPort.content, e, List.append_assoc]
        rw [← List.append_assoc, List.take_left]
  · have ht : tmp = [] := by
      cases tmp with
      | nil => rfl
      | cons a t => simp at hgot
    subst ht
    refine ⟨sp, by simp [serial_append], ⟨h1, h2, h3⟩, ?_, rfl, rfl⟩
    simp only [appendRead, hlen, List.length_nil, List.append_nil]
    rw [if_neg]
    omega

theorem getD_content {sp : SerialPort} (j : Nat) (hj : (j : Int) < sp.len) :
    sp.buf.getD j 0 = sp.content.getD j 0 := by
  have : j < sp.len.toNat := by omega
  simp only [SerialPort.content, List.getD_eq_getElem?_getD, List.getElem?_take, this, ↓reduceIte]

/-- The scan half on a well-formed connection whose accumulated bytes hold no terminator. -/
theorem serial_scan_none (sp : SerialPort) (outCap : Int) (hno : 10 ∉ sp.content) :
    serial_scan sp outCap = some (sp, none) := by
  have : findNewline sp.buf sp.len sp.len.toNat 0 = none := by
    apply findNewline_none
    intro j hj h10
    rw [getD_content j hj] at h10
    apply hno
    have hjl : j < sp.content.length := by
      by_contra hc
      rw [List.getD_eq_default _ _ (by omega)] at h10
      omega
    rw [List.getD_eq_getElem _ _ hjl] at h10
    rw [← h10]
    exact List.getElem_mem _
  simp only [serial_scan, this]

/-- The scan half on a well-formed connection whose accumulated bytes are `pre`, a
terminator and `rest`, with no terminator in `pre`: the line is `pre` and the terminator, cut
to `outCap - 1` bytes, and `rest` stays accumulated. -/
theorem serial_scan_some (sp : SerialPort) (outCap : Int) (pre rest : List Nat) (hwf : sp.WF)
    (hcap : 1 ≤ outCap) (hpre : 10 ∉ pre) (hc : sp.content = pre ++ 10 :: rest) :
    ∃ sp', serial_scan sp outCap = some (sp', some ((pre ++ [10]).take (outCap - 1).toNat)) ∧
      sp'.WF ∧ sp'.content = rest ∧ sp'.h = sp.h ∧ sp'.portName = sp.portName := by
  have hlen := content_length hwf
  obtain ⟨h1, h2, h3⟩ := hwf
  have hlen2 : sp.len.toNat = pre.length + 1 + rest.length := by
    rw [← hlen, hc]
    simp only [List.length_append, List.length_cons]
    omega
  have hfind : findNewline sp.buf sp.len sp.len.toNat 0 = some pre.length := by
    apply findNewline_found
    · omega
    · rw [getD_content _ (by omega), hc, List.getD_eq_getElem?_getD,
        List.getElem?_append_right (le_refl _)]
      simp
    · intro j hj h10
      rw [getD_content _ (by omega), hc, List.getD_eq_getElem?_getD,
        List.getElem?_append_left hj] at h10
      apply hpre
      rw [List.getElem?_eq_getElem hj] at h10
      simp only [Option.getD_some] at h10
      rw [← h10]
      exact List.getElem_mem _
    · omega
    · omega
  have hmove : memmove_front sp.buf ((pre.length : Int) + 1) (sp.len - ((pre.length : Int) + 1))
      = some ((sp.buf.drop (pre.length + 1)).take rest.length ++ sp.buf.drop rest.length) := by
    have e1 : ((pre.length : Int) + 1).toNat = pre.length + 1 := by omega
    have e2 : (sp.len - ((pre.length : Int) + 1)).toNat = rest.length := by omega
    simp only [memmove_front, e1, e2]
    rw [if_pos]
    refine ⟨by omega, by omega, by omega⟩
  have hcopy : ¬ ((if (pre.length : Int) + 1 < outCap - 1 then (pre.length : Int) + 1
      else outCap - 1) < 0) := by
    split_ifs <;> omega
  have hline : sp.buf.take (if (pre.length : Int) + 1 < outCap - 1 then (pre.length : Int) + 1
      else outCap - 1).toNat = (pre ++ [10]).take (outCap - 1).toNat := by
    have hsplit : sp.content = (pre ++ [10]) ++ rest := by simp [hc]
    have hle : (if (pre.length : Int) + 1 < outCap - 1 then (pre.length : Int) + 1
        else outCap - 1).toNat ≤ (pre ++ [10]).length := by
      simp only [List.length_append, List.length_singleton]
      split_ifs <;> omega
    have e1 : sp.buf.take (if (pre.length : Int) + 1 < outCap - 1 then (pre.length : Int) + 1
        else outCap - 1).toNat = sp.content.take (if (pre.length : Int) + 1 < outCap - 1
          then (pre.length : Int) + 1 else outCap - 1).toNat := by
      simp only [SerialPort.content, List.take_take]
      congr 1
      simp only [List.length_append, List.length_singleton] at hle
      omega
    rw [e1, hsplit, List.take_append_of_le_length hle, List.take_eq_take]
    simp only [List.length_append, List.length_singleton]
    split_ifs <;> omega
  simp only [serial_scan, hfind, hcopy, ↓reduceIte, hmove, Option.map_some', Nat.cast_inj, hline]
  refine ⟨_, rfl, ⟨?_, ?_, ?_⟩, ?_, rfl, rfl⟩
  · simp only [List.length_append, List.length_take, List.length_drop]
    omega
  · show (0 : Int) ≤ sp.len - ((pre.length : Int) + 1)
    omega
  · show sp.len - ((pre.length : Int) + 1) ≤ 2048
    omega
  · have e2 : (sp.len - ((pre.length : Int) + 1)).toNat = rest.length := by omega
    have hr : (sp.buf.drop (pre.length + 1)).take rest.length = rest := by
      have hd : sp.content.drop (pre.length + 1) = rest := by
        rw [hc]
        have : pre ++ 10 :: rest = (pre ++ [10]) ++ rest := by simp
        rw [this, List.drop_append_eq_append_drop]
        simp
      have hd2 : sp.content.drop (pre.length + 1)
          = (sp.buf.drop (pre.length + 1)).take (sp.len.toNat - (pre.length + 1)) := by
        simp only [SerialPort.content, List.drop_take]
      have e : sp.len.toNat - (pre.length + 1) = rest.length := by omega
      rw [hd2, e] at hd
      exact hd
    simp only [SerialPort.content, e2]
    rw [List.take_append_eq_append_take]
    simp only [List.take_take, List.length_take, List.length_drop, min_self, hr]
    have : rest.length - min rest.length (sp.buf.length - (pre.length + 1)) = 0 := by omega
    simp [this]

/-- The framer refines `frameRead`: on a well-formed connection and a read of at most 128
bytes no access leaves a buffer, the invariant is kept, and the line handed out and the bytes
left accumulated are those `frameRead` computes from the accumulated bytes alone. -/
theorem serial_readline_frame (sp : SerialPort) (tmp : List Nat) (outCap : Int) (hwf : sp.WF)
    (htmp : tmp.length ≤ 128) (hcap : 1 ≤ outCap) :
    ∃ sp', serial_readline sp (some tmp) outCap
        = some (sp', (frameRead sp.content tmp outCap).1) ∧
      sp'.WF ∧ sp'.content = (frameRead sp.content tmp outCap).2 ∧
      sp'.h = sp.h ∧ sp'.portName = sp.portName := by
  obtain ⟨sp1, happ, hwf1, hc1, hh1, hn1⟩ := serial_append_frame sp tmp hwf htmp
  simp only [serial_readline, happ, Option.some_bind, frameRead]
  rcases hs : splitLine (appendRead sp.content tmp) with _ | ⟨seg, rest⟩
  · have hno : 10 ∉ sp1.content := by
      rw [hc1]
      exact splitLine_eq_none.mp hs
    exact ⟨sp1, by rw [serial_scan_none sp1 outCap hno], hwf1, hc1, hh1, hn1⟩
  · obtain ⟨pre, hpre, rfl, hc⟩ := splitLine_eq_some.mp hs
    obtain ⟨sp', hscan, hwf', hc', hh', hn'⟩ :=
      serial_scan_some sp1 outCap pre rest hwf1 hcap hpre (hc1.trans hc)
    exact ⟨sp', hscan, hwf', hc', hh'.trans hh1, hn'.trans hn1⟩

/-- A run of reads refines `frameReads`. -/
theorem readlines_frame (chunks : List (List Nat)) :
    ∀ (sp : SerialPort), sp.WF → (∀ c ∈ chunks, c.length ≤ 128) →
      ∃ sp', readlines sp (chunks.map some) = some ((frameReads sp.content chunks).1, sp') ∧
        sp'.WF ∧ sp'.content = (frameReads sp.content chunks).2 := by
  induction chunks with
  | nil =>
    intro sp hwf _
    exact ⟨sp, rfl, hwf, rfl⟩
  | cons c cs ih =>
    intro sp hwf hch
    obtain ⟨sp1, h1, hwf1, hc1, -, -⟩ :=
      serial_readline_frame sp c 256 hwf (hch c (List.mem_cons_self _ _)) (by norm_num)
    obtain ⟨sp2, h2, hwf2, hc2⟩ := ih sp1 hwf1 (fun x hx => hch x (List.mem_cons_of_mem _ hx))
    refine ⟨sp2, ?_, hwf2, ?_⟩
    · simp only [List.map_cons, readlines, h1, h2, frameReads, hc1]
    · simp only [frameReads, hc2, hc1]

theorem serial_open_state_WF (handle : Nat) (comName : List Nat) :
    (serial_open_state handle comName).WF := by
  refine ⟨?_, ?_, ?_⟩
  · show (List.replicate 2048 0).length = 2048
    exact List.length_replicate _ _
  · show (0 : Int) ≤ 0
    omega
  · show (0 : Int) ≤ 2048
    omega

theorem serial_open_state_content (handle : Nat) (comName : List Nat) :
    (serial_open_state handle comName).content = [] := by
  show List.take (0 : Int).toNat (List.replicate 2048 0) = []
  rw [Int.toNat_zero, List.take_zero]

theorem longLineState_WF : longLineState.WF := by
  refine ⟨?_, ?_, ?_⟩
  · show (List.replicate 255 65 ++ List.replicate 1793 0).length = 2048
    rw [List.length_append, List.length_replicate, List.length_replicate]
  · show (0 : Int) ≤ 255
    omega
  · show (255 : Int) ≤ 2048
    omega

theorem longLineState_content : longLineState.content = List.replicate 255 65 := by
  show List.take (255 : Int).toNat (List.replicate 255 65 ++ List.replicate 1793 0) = _
  exact List.take_left' (List.length_replicate _ _)

/-- C4, as stated, fails. With 255 bytes `A` accumulated and a read of the terminator
alone, the segment up to and including the first terminator has 256 bytes, and the line
handed out is the 255 bytes `A` without the terminator. -/
theorem serial_readline_cuts_long_line :
    appendRead longLineState.content [10] = List.replicate 255 65 ++ 10 :: [] ∧
    10 ∉ List.replicate 255 65 ∧
    (serial_readline longLineState (some [10]) 256).map Prod.snd
      = some (some (List.replicate 255 65)) ∧
    List.replicate 255 65 ≠ List.replicate 255 65 ++ [10] := by
  have hmem : 10 ∉ List.replicate 255 65 := by
    intro h
    have := List.eq_of_mem_replicate h
    omega
  have happ : appendRead longLineState.content [10] = List.replicate 255 65 ++ 10 :: [] := by
    rw [longLineState_content, appendRead, if_neg]
    rw [List.length_replicate]
    simp
  refine ⟨happ, hmem, ?_, ?_⟩
  · obtain ⟨sp', h, -, -, -, -⟩ :=
      serial_readline_frame longLineState [10] 256 longLineState_WF (by simp) (by norm_num)
    have hs : splitLine (appendRead longLineState.content [10])
        = some (List.replicate 255 65 ++ [10], []) :=
      splitLine_eq_some.mpr ⟨_, hmem, rfl, happ⟩
    rw [h]
    simp only [frameRead, hs, Option.map_some', Option.some.injEq]
    have : ((256 : Int) - 1).toNat = (List.replicate 255 65).length := by
      rw [List.length_replicate]
      rfl
    rw [this, List.take_left]
  · intro h
    have := congrArg List.length h
    rw [List.length_append, List.length_replicate, List.length_singleton] at this
    omega

/-- C4, amended. On a well-formed connection, with `outCap = 256` as in `main` and a
read of at most 128 bytes: when the accumulated bytes after the read are `pre`, a terminator
and `rest`, with no terminator in `pre`, the line handed out is the first 255 bytes of `pre`
with its terminator (all of it when it has at most 255 bytes) and exactly `rest` stays
accumulated; when they hold no terminator, no line is handed out and they stay as they
are. -/
theorem serial_readline_first_line (sp : SerialPort) (tmp : List Nat) (hwf : sp.WF)
    (htmp : tmp.length ≤ 128) :
    (∀ pre rest, 10 ∉ pre → appendRead sp.content tmp = pre ++ 10 :: rest →
      ∃ sp', serial_readline sp (some tmp) 256 = some (sp', some ((pre ++ [10]).take 255)) ∧
        sp'.content = rest ∧ sp'.WF ∧
        (pre.length + 1 ≤ 255 → (pre ++ [10]).take 255 = pre ++ [10])) ∧
    (10 ∉ appendRead sp.content tmp →
      ∃ sp', serial_readline sp (some tmp) 256 = some (sp', none) ∧
        sp'.content = appendRead sp.content tmp ∧ sp'.WF) := by
  obtain ⟨sp', h, hwf', hc', -, -⟩ := serial_readline_frame sp tmp 256 hwf htmp (by norm_num)
  constructor
  · intro pre rest hpre hc
    have hs : splitLine (appendRead sp.content tmp) = some (pre ++ [10], rest) :=
      splitLine_eq_some.mpr ⟨pre, hpre, rfl, hc⟩
    simp only [frameRead, hs] at h hc'
    refine ⟨sp', h, hc', hwf', ?_⟩
    intro hle
    exact List.take_of_length_le (by simp; omega)
  · intro hno
    have hs : splitLine (appendRead sp.content tmp) = none := splitLine_eq_none.mpr hno
    simp only [frameRead, hs] at h hc'
    exact ⟨sp', h, hc', hwf'⟩

/-- From the state after `serial_open`, a read of `7\n42` hands out the line `7\n` and
leaves `42` accumulated. -/
theorem serial_readline_first_line_witness :
    ∃ sp', serial_readline (serial_open_state 1 (bytes "COM3")) (some (bytes "7\n42")) 256
        = some (sp', some ((bytes "7" ++ [10]).take 255)) ∧
      sp'.content = bytes "42" ∧ sp'.WF ∧
      ((bytes "7").length + 1 ≤ 255 → (bytes "7" ++ [10]).take 255 = bytes "7" ++ [10]) :=
  (serial_readline_first_line (serial_open_state 1 (bytes "COM3")) (bytes "7\n42")
    (serial_open_state_WF _ _) (by decide)).1 (bytes "7") (bytes "42") (by decide)
    (by rw [serial_open_state_content]; decide)

/-- C10. On a connection whose buffer has its 2048 bytes and whose `len` is in
`[0, 2048]`, whatever `ReadFile` did (a failure, or at most 128 bytes stored),
`serial_readline` makes no access outside a buffer and leaves `len` in `[0, 2048]`; and when
the bytes read do not fit behind the accumulated ones, the append step leaves exactly the
bytes read in the buffer, the older ones being discarded, before the scan runs. -/
theorem serial_readline_keeps_bounds (sp : SerialPort) (read : Option (List Nat))
    (hbuf : sp.buf.length = 2048) (h0 : 0 ≤ sp.len) (h1 : sp.len ≤ 2048)
    (hread : ∀ tmp, read = some tmp → tmp.length ≤ 128) :
    (∃ sp' line, serial_readline sp read 256 = some (sp', line) ∧
      sp'.buf.length = 2048 ∧ 0 ≤ sp'.len ∧ sp'.len ≤ 2048) ∧
    (∀ tmp, read = some tmp → sp.len + (tmp.length : Int) > 2048 →
      ∃ sp1, serial_append sp tmp = some sp1 ∧ sp1.content = tmp ∧
        sp1.len = (tmp.length : Int) ∧ sp1.buf.length = 2048 ∧
        serial_readline sp read 256 = serial_scan sp1 256) := by
  have hwf : sp.WF := ⟨hbuf, h0, h1⟩
  constructor
  · cases read with
    | none => exact ⟨sp, none, rfl, hbuf, h0, h1⟩
    | some tmp =>
      obtain ⟨sp', h, hwf', -, -, -⟩ :=
        serial_readline_frame sp tmp 256 hwf (hread tmp rfl) (by norm_num)
      exact ⟨sp', _, h, hwf'.1, hwf'.2.1, hwf'.2.2⟩
  · intro tmp hr hov
    subst hr
    obtain ⟨sp1, happ, hwf1, hc1, -, -⟩ := serial_append_frame sp tmp hwf (hread tmp rfl)
    have hlen := content_length hwf
    have hc : sp1.content = tmp := by
      rw [hc1, appendRead, if_pos]
      omega
    have hl := content_length hwf1
    rw [hc] at hl
    refine ⟨sp1, happ, hc, ?_, hwf1.1, ?_⟩
    · have := hwf1.2.1
      omega
    · simp only [serial_readline, happ, Option.some_bind]

/-- With 2000 bytes accumulated, a read of 100 bytes does not fit: the call stays inside
the buffer and only the 100 bytes read are kept. -/
theorem serial_readline_keeps_bounds_witness :
    (∃ sp' line, serial_readline nearlyFullState (some (List.replicate 100 66)) 256
        = some (sp', line) ∧ sp'.buf.length = 2048 ∧ 0 ≤ sp'.len ∧ sp'.len ≤ 2048) ∧
    (∃ sp1, serial_append nearlyFullState (List.replicate 100 66) = some sp1 ∧
      sp1.content = List.replicate 100 66 ∧
      sp1.len = ((List.replicate 100 66).length : Int) ∧ sp1.buf.length = 2048 ∧
      serial_readline nearlyFullState (some (List.replicate 100 66)) 256
        = serial_scan sp1 256) := by
  have hlen : (List.replicate 100 66).length = 100 := List.length_replicate _ _
  have key := serial_readline_keeps_bounds nearlyFullState (some (List.replicate 100 66))
    (List.length_replicate _ _) (by show (0 : Int) ≤ 2000; omega)
    (by show (2000 : Int) ≤ 2048; omega)
    (by intro tmp h; cases h; omega)
  exact ⟨key.1, key.2 _ rfl (by show (2000 : Int) + _ > 2048; omega)⟩

theorem frameRead_length (c tmp : List Nat) (outCap : Int) :
    (frameRead c tmp outCap).2.length ≤ c.length + tmp.length := by
  have happ : (appendRead c tmp).length ≤ c.length + tmp.length := by
    unfold appendRead
    split_ifs
    · omega
    · simp
  unfold frameRead
  rcases hs : splitLine (appendRead c tmp) with _ | ⟨seg, rest⟩
  · simpa using happ
  · obtain ⟨pre, -, rfl, hc⟩ := splitLine_eq_some.mp hs
    have := congrArg List.length hc
    simp only [List.length_append, List.length_cons] at this
    simp only
    omega

/-- A run whose bytes all fit into the buffer together never triggers the overflow guard. -/
theorem noOverflow_of_total (chunks : List (List Nat)) :
    ∀ (sp : SerialPort), sp.WF → (∀ c ∈ chunks, c.length ≤ 128) →
      sp.len + (chunks.flatten.length : Int) ≤ 2048 → noOverflow sp chunks = true := by
  induction chunks with
  | nil => intro sp _ _ _; rfl
  | cons c cs ih =>
    intro sp hwf hch htot
    simp only [List.flatten_cons, List.length_append, Nat.cast_add] at htot
    obtain ⟨sp1, h1, hwf1, hc1, -, -⟩ :=
      serial_readline_frame sp c 256 hwf (hch c (List.mem_cons_self _ _)) (by norm_num)
    have hl := content_length hwf
    have hl1 := content_length hwf1
    have hfr := frameRead_length sp.content c 256
    rw [← hc1, hl1, hl] at hfr
    have h0 := hwf.2.1
    have h01 := hwf1.2.1
    have : noOverflow sp1 cs = true :=
      ih sp1 hwf1 (fun x hx => hch x (List.mem_cons_of_mem _ hx)) (by omega)
    simp only [noOverflow, h1, this, Bool.and_true, decide_eq_true_eq]
    omega

theorem LinesAtMost_suffix {n : Nat} {p s : List Nat} (h : LinesAtMost n (p ++ s)) :
    LinesAtMost n s := by
  intro p' q r hs hq
  exact h (p ++ p') q r (by rw [hs]; simp) hq

theorem readlines_flatten_aux (chunks : List (List Nat)) :
    ∀ (sp : SerialPort), sp.WF → (∀ c ∈ chunks, c.length ≤ 128) →
      noOverflow sp chunks = true → LinesAtMost 255 (sp.content ++ chunks.flatten) →
      ∃ lines sp', readlines sp (chunks.map some) = some (lines, sp') ∧ sp'.WF ∧
        lines.flatten ++ sp'.content = sp.content ++ chunks.flatten ∧
        ∀ l ∈ lines, ∃ pre, 10 ∉ pre ∧ l = pre ++ [10] := by
  induction chunks with
  | nil =>
    intro sp hwf _ _ _
    exact ⟨[], sp, rfl, hwf, by simp, by simp⟩
  | cons c cs ih =>
    intro sp hwf hch hno hl
    have hc128 := hch c (List.mem_cons_self _ _)
    obtain ⟨sp1, h1, hwf1, hc1, -, -⟩ := serial_readline_frame sp c 256 hwf hc128 (by norm_num)
    simp only [noOverflow, h1, Bool.and_eq_true, decide_eq_true_eq] at hno
    have hlen := content_length hwf
    have happ : appendRead sp.content c = sp.content ++ c := by
      rw [appendRead, if_neg]
      have := hwf.2.1
      omega
    have hch' : ∀ x ∈ cs, x.length ≤ 128 := fun x hx => hch x (List.mem_cons_of_mem _ hx)
    rcases hs : splitLine (sp.content ++ c) with _ | ⟨seg, rest⟩
    · simp only [frameRead, happ, hs] at h1 hc1
      obtain ⟨lines, sp2, h2, hwf2, hjoin, hterm⟩ := ih sp1 hwf1 hch' hno.2
        (by rw [hc1]; simpa [List.append_assoc] using hl)
      refine ⟨lines, sp2, ?_, hwf2, ?_, hterm⟩
      · simp only [List.map_cons, readlines, h1, h2, Option.toList, List.nil_append]
      · rw [hjoin, hc1]
        simp
    · obtain ⟨pre, hpre, rfl, hc⟩ := splitLine_eq_some.mp hs
      have hstream0 : sp.content ++ (c :: cs).flatten = pre ++ 10 :: (rest ++ cs.flatten) := by
        rw [List.flatten_cons, ← List.append_assoc, hc]
        simp
      have hfit : pre.length + 1 ≤ 255 :=
        hl [] pre (rest ++ cs.flatten) (by rw [hstream0]; simp) hpre
      have htake : (pre ++ [10]).take ((256 : Int) - 1).toNat = pre ++ [10] :=
        List.take_of_length_le (by
          simp only [List.length_append, List.length_singleton]
          omega)
      simp only [frameRead, happ, hs, htake] at h1 hc1
      have hstream : sp.content ++ (c :: cs).flatten = (pre ++ [10]) ++ (rest ++ cs.flatten) := by
        rw [hstream0]
        simp
      obtain ⟨lines, sp2, h2, hwf2, hjoin, hterm⟩ := ih sp1 hwf1 hch' hno.2
        (by rw [hc1]; rw [hstream] at hl; exact LinesAtMost_suffix hl)
      refine ⟨(pre ++ [10]) :: lines, sp2, ?_, hwf2, ?_, ?_⟩
      · simp only [List.map_cons, readlines, h1, h2, Option.toList, List.singleton_append]
      · rw [hstream, ← hc1, ← hjoin]
        simp
      · intro l hl'
        rcases List.mem_cons.mp hl' with rfl | hm
        · exact ⟨pre, hpre, rfl⟩
        · exact hterm l hm

/-- C3. On a well-formed connection, for every sequence of reads of at most 128 bytes
each, handed to successive `serial_readline` calls, such that the overflow guard is never
triggered and no newline-terminated segment of the stream has more than 255 bytes: every
call stays inside the buffers, each line returned is a run of bytes without a terminator
followed by one terminator, and the lines returned, in order, followed by the bytes left
accumulated are exactly the bytes accumulated at the start followed by all the bytes read.
In particular, from the state after `serial_open`, the bytes `12\n34\n5` read as `12\n3` and
`4\n5` give the lines `12\n` and `34\n` and leave `5` accumulated; and however the 7 bytes
are split over two reads, these two reads and two empty ones give the same. -/
theorem readlines_stream (sp : SerialPort) (chunks : List (List Nat)) (hwf : sp.WF)
    (hch : ∀ c ∈ chunks, c.length ≤ 128) (hno : noOverflow sp chunks = true)
    (hl : LinesAtMost 255 (sp.content ++ chunks.flatten)) :
    (∃ lines sp', readlines sp (chunks.map some) = some (lines, sp') ∧
      lines.flatten ++ sp'.content = sp.content ++ chunks.flatten ∧
      ∀ l ∈ lines, ∃ pre, 10 ∉ pre ∧ l = pre ++ [10]) ∧
    (∃ sp', readlines (serial_open_state 1 (bytes "COM3"))
        [some (bytes "12\n3"), some (bytes "4\n5")]
          = some ([bytes "12\n", bytes "34\n"], sp') ∧ sp'.content = bytes "5") ∧
    (∀ k, k ≤ 7 → ∃ sp', readlines (serial_open_state 1 (bytes "COM3"))
        [some ((bytes "12\n34\n5").take k), some ((bytes "12\n34\n5").drop k), some [],
          some []]
          = some ([bytes "12\n", bytes "34\n"], sp') ∧ sp'.content = bytes "5") := by
  refine ⟨?_, ?_, ?_⟩
  · obtain ⟨lines, sp', h, -, hj, ht⟩ := readlines_flatten_aux chunks sp hwf hch hno hl
    exact ⟨lines, sp', h, hj, ht⟩
  · obtain ⟨sp', h, -, hc⟩ := readlines_frame [bytes "12\n3", bytes "4\n5"]
      (serial_open_state 1 (bytes "COM3")) (serial_open_state_WF _ _) (by decide)
    rw [serial_open_state_content] at h hc
    exact ⟨sp', h, hc⟩
  · intro k hk
    have hsmall : ∀ c ∈ [(bytes "12\n34\n5").take k, (bytes "12\n34\n5").drop k, [], []],
        c.length ≤ 128 := by
      intro c hc
      simp only [List.mem_cons, List.mem_singleton, List.not_mem_nil, or_false] at hc
      rcases hc with rfl | rfl | rfl | rfl
      · simp only [List.length_take]
        omega
      · have : (bytes "12\n34\n5").length = 7 := by decide
        simp only [List.length_drop, this]
        omega
      · simp
      · simp
    obtain ⟨sp', h, -, hc⟩ := readlines_frame _ (serial_open_state 1 (bytes "COM3"))
      (serial_open_state_WF _ _) hsmall
    rw [serial_open_state_content] at h hc
    have hall : ∀ j, j < 8 → frameReads []
        [(bytes "12\n34\n5").take j, (bytes "12\n34\n5").drop j, [], []]
          = ([bytes "12\n", bytes "34\n"], bytes "5") := by
      decide
    rw [hall k (by omega)] at h hc
    exact ⟨sp', h, hc⟩

/-- The reads `12\n3` and `4\n5` from the state after `serial_open` meet the hypotheses. -/
theorem readlines_stream_witness :
    ∃ lines sp', readlines (serial_open_state 1 (bytes "COM3"))
        ([bytes "12\n3", bytes "4\n5"].map some) = some (lines, sp') ∧
      lines.flatten ++ sp'.content
        = (serial_open_state 1 (bytes "COM3")).content ++ [bytes "12\n3", bytes "4\n5"].flatten ∧
      ∀ l ∈ lines, ∃ pre, 10 ∉ pre ∧ l = pre ++ [10] :=
  (readlines_stream (serial_open_state 1 (bytes "COM3")) [bytes "12\n3", bytes "4\n5"]
    (serial_open_state_WF _ _) (by decide)
    (noOverflow_of_total _ _ (serial_open_state_WF _ _) (by decide) (by decide))
    (by
      intro p q r h _
      have := congrArg List.length h
      rw [serial_open_state_content] at this
      simp [bytes] at this
      omega)).1

/-! ## The blip store -/

theorem take_set_succ {α : Type} (l : List α) (n : Nat) (b : α) (h : n < l.length) :
    (l.set n b).take (n + 1) = l.take n ++ [b] := by
  induction l generalizing n with
  | nil => simp at h
  | cons a t ih =>
    cases n with
    | zero => simp
    | succ k =>
      simp only [List.length_cons, Nat.add_lt_add_iff_right] at h
      simp [ih k h]

theorem take_set_zero {α : Type} (l : List α) (n : Nat) (b : α) (h0 : 0 < n)
    (hl : 0 < l.length) : (l.set 0 b).take n = b :: (l.take n).tail := by
  cases l with
  | nil => simp at hl
  | cons a t =>
    cases n with
    | zero => omega
    | succ k => simp

/-- A rejected line, or a negative value, stores no blip. -/
theorem handleEvent_none {F : Type} (ops : FloatOps F) (m : Model F) (e : SampleEvent F)
    (h : blipOf ops e = none) :
    (handleEvent ops m e).stored = m.stored ∧ (handleEvent ops m e).blipCount = m.blipCount ∧
      (handleEvent ops m e).blips.length = m.blips.length := by
  unfold blipOf at h
  unfold handleEvent handleLine
  rcases hp : parse_distance_cm e.line with _ | cm
  · exact ⟨rfl, rfl, rfl⟩
  · rw [hp] at h
    have hneg : ¬ (cm ≥ 0) := by
      intro hc
      simp [hc] at h
    simp only [hneg, ↓reduceIte]
    exact ⟨by trivial, by trivial, by trivial⟩

/-- An accepted value that is not negative, below the capacity: the blip is appended. -/
theorem handleEvent_append {F : Type} (ops : FloatOps F) (m : Model F) (e : SampleEvent F)
    (b : Blip F) (h : blipOf ops e = some b) (hlen : m.blips.length = 2048)
    (hlt : m.blipCount < 2048) :
    (handleEvent ops m e).stored = m.stored ++ [b] ∧
      (handleEvent ops m e).blipCount = m.blipCount + 1 ∧
      (handleEvent ops m e).blips.length = 2048 := by
  unfold blipOf at h
  unfold handleEvent handleLine
  rcases hp : parse_distance_cm e.line with _ | cm
  · simp [hp] at h
  · rw [hp] at h
    have hnn : cm ≥ 0 := by
      by_contra hc
      have : ¬ (0 ≤ cm) := hc
      simp [this] at h
    have hb : b = ⟨e.sweep, ops.ofInt cm, e.now⟩ := by
      have : (0 : Int) ≤ cm := hnn
      simp only [this, ↓reduceIte, Option.some.injEq] at h
      exact h.symm
    simp only [hnn, ↓reduceIte, hlt]
    refine ⟨?_, by trivial, ?_⟩
    · simp only [Model.stored]
      rw [take_set_succ _ _ _ (by omega), hb]
    · simp only [List.length_set]
      exact hlen

/-- An accepted value that is not negative, with the collection full: the blip replaces the
entry at index 0. -/
theorem handleEvent_full {F : Type} (ops : FloatOps F) (m : Model F) (e : SampleEvent F)
    (b : Blip F) (h : blipOf ops e = some b) (hlen : m.blips.length = 2048)
    (hfull : m.blipCount = 2048) :
    (handleEvent ops m e).stored = b :: m.stored.tail ∧
      (handleEvent ops m e).blipCount = 2048 ∧
      (handleEvent ops m e).blips.length = 2048 := by
  unfold blipOf at h
  unfold handleEvent handleLine
  rcases hp : parse_distance_cm e.line with _ | cm
  · simp [hp] at h
  · rw [hp] at h
    have hnn : cm ≥ 0 := by
      by_contra hc
      have : ¬ (0 ≤ cm) := hc
      simp [this] at h
    have hb : b = ⟨e.sweep, ops.ofInt cm, e.now⟩ := by
      have : (0 : Int) ≤ cm := hnn
      simp only [this, ↓reduceIte, Option.some.injEq] at h
      exact h.symm
    have hnlt : ¬ (m.blipCount < 2048) := by omega
    simp only [hnn, ↓reduceIte, hnlt]
    refine ⟨?_, hfull, ?_⟩
    · simp only [Model.stored]
      rw [take_set_zero _ _ _ (by omega) (by omega), hb]
    · simp only [List.length_set]
      exact hlen

theorem handleEvent_latestCm {F : Type} (ops : FloatOps F) (m : Model F) (e : SampleEvent F) :
    (handleEvent ops m e).latestCm = (parse_distance_cm e.line).getD m.latestCm := by
  unfold handleEvent handleLine
  rcases hp : parse_distance_cm e.line with _ | cm
  · rfl
  · simp only [Option.getD_some]
    split_ifs <;> rfl

/-- Below the capacity a sequence of lines appends exactly the blips it calls for. -/
theorem handleEvents_append {F : Type} (ops : FloatOps F) (es : List (SampleEvent F)) :
    ∀ (m : Model F), m.blips.length = 2048 →
      m.blipCount + (newBlips ops es).length ≤ 2048 →
      (handleEvents ops m es).stored = m.stored ++ newBlips ops es ∧
        (handleEvents ops m es).blipCount = m.blipCount + (newBlips ops es).length ∧
        (handleEvents ops m es).blips.length = 2048 ∧
        (handleEvents ops m es).latestCm = (lastAccepted es).getD m.latestCm := by
  induction es with
  | nil =>
    intro m hlen _
    simp [handleEvents, newBlips, lastAccepted, hlen]
  | cons e es ih =>
    intro m hlen hcap
    have hlat := handleEvent_latestCm ops m e
    have hlast : (lastAccepted (e :: es)).getD m.latestCm
        = (lastAccepted es).getD ((parse_distance_cm e.line).getD m.latestCm) := by
      unfold lastAccepted
      rcases hp : parse_distance_cm e.line with _ | cm
      · simp [List.filterMap_cons, hp]
      · simp only [List.filterMap_cons, hp, List.getLast?_cons, Option.getD_some]
    rcases hb : blipOf ops e with _ | b
    · obtain ⟨h1, h2, h3⟩ := handleEvent_none ops m e hb
      have hnb : newBlips ops (e :: es) = newBlips ops es := by
        simp [newBlips, List.filterMap_cons, hb]
      rw [hnb] at hcap ⊢
      obtain ⟨i1, i2, i3, i4⟩ := ih (handleEvent ops m e) (h3.trans hlen) (by omega)
      simp only [handleEvents, List.foldl_cons] at i1 i2 i3 i4 ⊢
      exact ⟨by rw [i1, h1], by rw [i2, h2], i3, by rw [i4, hlat, hlast]⟩
    · have hnb : newBlips ops (e :: es) = b :: newBlips ops es := by
        simp [newBlips, List.filterMap_cons, hb]
      rw [hnb] at hcap ⊢
      simp only [List.length_cons] at hcap
      obtain ⟨h1, h2, h3⟩ := handleEvent_append ops m e b hb hlen (by omega)
      obtain ⟨i1, i2, i3, i4⟩ := ih (handleEvent ops m e) h3 (by omega)
      simp only [handleEvents, List.foldl_cons] at i1 i2 i3 i4 ⊢
      refine ⟨by rw [i1, h1]; simp, by rw [i2, h2, List.length_cons]; omega, i3, ?_⟩
      rw [i4, hlat, hlast]

theorem initialModel_stored {F : Type} (ops : FloatOps F) (init : List (Blip F)) :
    (initialModel ops init).stored = [] := by
  simp [Model.stored, initialModel]

/-- C5. For every sequence of framed lines handled by the loop body, each at its own
sweep angle and time, while the blip collection stays within its capacity: afterwards
`latestCm` is the value of the last line the parser accepted (unchanged if there is none),
and the blips stored are those stored before followed by exactly one blip for each line
accepted with a value that is not negative, in order, none for a rejected line or a -1
sample, each with the sweep angle, the distance and the time of its line.  In particular
the lines `RADAR_READY`, `30`, `-1`, `500`, `9999` handled from the start leave
`latestCm = 500` and exactly 3 blips. -/
theorem handleEvents_samples {F : Type} (ops : FloatOps F) (m : Model F)
    (es : List (SampleEvent F)) (hlen : m.blips.length = 2048)
    (hcap : m.blipCount + (newBlips ops es).length ≤ 2048) :
    ((handleEvents ops m es).stored = m.stored ++ newBlips ops es ∧
      (handleEvents ops m es).blipCount = m.blipCount + (newBlips ops es).length ∧
      (handleEvents ops m es).latestCm = (lastAccepted es).getD m.latestCm) ∧
    (∀ (init : List (Blip F)) (s t : F), init.length = 2048 →
      (handleEvents ops (initialModel ops init)
          [⟨s, t, bytes "RADAR_READY\r\n"⟩, ⟨s, t, bytes "30\n"⟩, ⟨s, t, bytes "-1\n"⟩,
            ⟨s, t, bytes "500\n"⟩, ⟨s, t, bytes "9999\n"⟩]).latestCm = 500 ∧
      (handleEvents ops (initialModel ops init)
          [⟨s, t, bytes "RADAR_READY\r\n"⟩, ⟨s, t, bytes "30\n"⟩, ⟨s, t, bytes "-1\n"⟩,
            ⟨s, t, bytes "500\n"⟩, ⟨s, t, bytes "9999\n"⟩]).stored
        = [⟨s, ops.ofInt 30, t⟩, ⟨s, ops.ofInt 500, t⟩, ⟨s, ops.ofInt 500, t⟩]) := by
  constructor
  · obtain ⟨h1, h2, -, h4⟩ := handleEvents_append ops es m hlen hcap
    exact ⟨h1, h2, h4⟩
  · intro init s t hinit
    have p0 : parse_distance_cm (bytes "RADAR_READY\r\n") = none := by decide
    have p1 : parse_distance_cm (bytes "30\n") = some 30 := by decide
    have p2 : parse_distance_cm (bytes "-1\n") = some (-1) := by decide
    have p3 : parse_distance_cm (bytes "500\n") = some 500 := by decide
    have p4 : parse_distance_cm (bytes "9999\n") = some 500 := by decide
    have hnb : newBlips ops
        [⟨s, t, bytes "RADAR_READY\r\n"⟩, ⟨s, t, bytes "30\n"⟩, ⟨s, t, bytes "-1\n"⟩,
          ⟨s, t, bytes "500\n"⟩, ⟨s, t, bytes "9999\n"⟩]
        = [⟨s, ops.ofInt 30, t⟩, ⟨s, ops.ofInt 500, t⟩, ⟨s, ops.ofInt 500, t⟩] := by
      simp [newBlips, List.filterMap_cons, blipOf, p0, p1, p2, p3, p4]
    have hla : lastAccepted
        ([⟨s, t, bytes "RADAR_READY\r\n"⟩, ⟨s, t, bytes "30\n"⟩, ⟨s, t, bytes "-1\n"⟩,
          ⟨s, t, bytes "500\n"⟩, ⟨s, t, bytes "9999\n"⟩] : List (SampleEvent F)) = some 500 := by
      simp [lastAccepted, List.filterMap_cons, p0, p1, p2, p3, p4]
    obtain ⟨h1, -, -, h4⟩ := handleEvents_append ops _ (initialModel ops init) hinit
      (by rw [hnb]; simp [initialModel])
    rw [hnb, initialModel_stored] at h1
    rw [hla] at h4
    exact ⟨h4, h1⟩

/-- The five lines of the end-to-end scenario, handled from the start at the angle 0 and
the time 0 in exact arithmetic, stay within the capacity. -/
theorem handleEvents_samples_witness :
    (handleEvents exactOps (initialModel exactOps (List.replicate 2048 ⟨0, 0, 0⟩))
        [⟨0, 0, bytes "RADAR_READY\r\n"⟩, ⟨0, 0, bytes "30\n"⟩, ⟨0, 0, bytes "-1\n"⟩,
          ⟨0, 0, bytes "500\n"⟩, ⟨0, 0, bytes "9999\n"⟩]).blipCount
      = (initialModel exactOps (List.replicate 2048 ⟨0, 0, 0⟩)).blipCount
        + (newBlips exactOps
            [⟨0, 0, bytes "RADAR_READY\r\n"⟩, ⟨0, 0, bytes "30\n"⟩, ⟨0, 0, bytes "-1\n"⟩,
              ⟨0, 0, bytes "500\n"⟩, ⟨0, 0, bytes "9999\n"⟩]).length :=
  (handleEvents_samples exactOps (initialModel exactOps (List.replicate 2048 ⟨0, 0, 0⟩))
    [⟨0, 0, bytes "RADAR_READY\r\n"⟩, ⟨0, 0, bytes "30\n"⟩, ⟨0, 0, bytes "-1\n"⟩,
      ⟨0, 0, bytes "500\n"⟩, ⟨0, 0, bytes "9999\n"⟩]
    (List.length_replicate _ _)
    (by
      have : (newBlips exactOps
          [⟨0, 0, bytes "RADAR_READY\r\n"⟩, ⟨0, 0, bytes "30\n"⟩, ⟨0, 0, bytes "-1\n"⟩,
            ⟨0, 0, bytes "500\n"⟩, ⟨0, 0, bytes "9999\n"⟩]).length ≤ 5 :=
        (List.length_filterMap_le _ _).trans (by simp)
      show 0 + _ ≤ 2048
      omega)).1.2.1

/-! ## The purge -/

theorem purgeLoop_spec {F : Type} (ops : FloatOps F) (now : F) (count : Nat) :
    ∀ (fuel i write : Nat) (blips : List (Blip F)), write ≤ i → count ≤ i + fuel →
      count ≤ blips.length →
      ((purgeLoop ops now count fuel i write blips).1.take
          (purgeLoop ops now count fuel i write blips).2
        = blips.take write ++ ((blips.drop i).take (count - i)).filter (alive ops now)) ∧
      (purgeLoop ops now count fuel i write blips).1.length = blips.length ∧
      (purgeLoop ops now count fuel i write blips).2 ≤ write + (count - i) := by
  intro fuel
  induction fuel with
  | zero =>
    intro i write blips _ hfuel _
    have : count - i = 0 := by omega
    simp [purgeLoop, this]
  | succ f ih =>
    intro i write blips hw hfuel hlen
    by_cases hi : i < count
    · have hil : i < blips.length := by omega
      have hget : blips[i]? = some blips[i] := List.getElem?_eq_getElem hil
      have hdrop : (blips.drop i).take (count - i)
          = blips[i] :: (blips.drop (i + 1)).take (count - (i + 1)) := by
        rw [List.drop_eq_getElem_cons hil]
        have : count - i = (count - (i + 1)) + 1 := by omega
        rw [this, List.take_succ_cons]
      rw [purgeLoop, if_pos hi, hget]
      simp only
      by_cases ha : alive ops now blips[i] = true
      · rw [if_pos ha]
        obtain ⟨h1, h2, h3⟩ := ih (i + 1) (write + 1) (blips.set write blips[i]) (by omega)
          (by omega) (by simpa using hlen)
        refine ⟨?_, by simpa using h2, by omega⟩
        rw [h1, take_set_succ _ _ _ (by omega), hdrop, List.filter_cons_of_pos ha]
        have : (blips.set write blips[i]).drop (i + 1) = blips.drop (i + 1) :=
          List.drop_set_of_lt _ _ (by omega)
        rw [this]
        simp
      · rw [if_neg ha]
        obtain ⟨h1, h2, h3⟩ := ih (i + 1) write blips (by omega) (by omega) hlen
        refine ⟨?_, h2, by omega⟩
        rw [h1, hdrop, List.filter_cons_of_neg ha]
    · have : count - i = 0 := by omega
      rw [purgeLoop, if_neg hi]
      simp [this]

/-- The purge keeps, in their order, exactly the stored blips that pass the test of the
loop. -/
theorem purge_stored {F : Type} (ops : FloatOps F) (now : F) (m : Model F)
    (hcount : m.blipCount ≤ m.blips.length) :
    (purge ops now m).stored = m.stored.filter (alive ops now) ∧
      (purge ops now m).blips.length = m.blips.length ∧
      (purge ops now m).blipCount ≤ m.blipCount := by
  obtain ⟨h1, h2, h3⟩ := purgeLoop_spec ops now m.blipCount m.blipCount 0 0 m.blips (le_refl _)
    (by omega) hcount
  refine ⟨?_, h2, by simpa [purge] using h3⟩
  simp only [Model.stored, purge]
  rw [h1]
  simp

/-! ## Overflow of the blip collection -/

theorem handleEvents_concat {F : Type} (ops : FloatOps F) (m : Model F)
    (es : List (SampleEvent F)) (e : SampleEvent F) :
    handleEvents ops m (es ++ [e]) = handleEvent ops (handleEvents ops m es) e := by
  simp [handleEvents, List.foldl_append]

theorem blipOf_tickEvent (k : Nat) : blipOf exactOps (tickEvent k) = some (tickBlip k) := by
  have p : parse_distance_cm (bytes "30\n") = some 30 := by decide
  simp [blipOf, tickEvent, tickBlip, p, exactOps]

theorem newBlips_tickEvent (l : List Nat) :
    newBlips exactOps (l.map tickEvent) = l.map tickBlip := by
  induction l with
  | nil => rfl
  | cons k l ih =>
    simp only [newBlips, List.map_cons, List.filterMap_cons, blipOf_tickEvent] at ih ⊢
    rw [ih]

theorem tickBlip_injective {j k : Nat} (h : tickBlip j = tickBlip k) : j = k := by
  simp only [tickBlip, Blip.mk.injEq, true_and] at h
  have h2 : (j : ℚ) = (k : ℚ) := by
    have := congrArg (fun x => x * 2048) h
    simpa using this
  exact_mod_cast h2

theorem startModel_WF : startModel.blips.length = 2048 ∧ startModel.blipCount = 0 ∧
    startModel.stored = [] := by
  refine ⟨?_, rfl, ?_⟩
  · show (List.replicate 2048 _).length = 2048
    exact List.length_replicate _ _
  · exact initialModel_stored _ _

/-- The model after the first 2048 samples of the run: the collection is full, in the
order of insertion. -/
theorem startModel_filled :
    (handleEvents exactOps startModel ((List.range 2048).map tickEvent)).stored
        = (List.range 2048).map tickBlip ∧
      (handleEvents exactOps startModel ((List.range 2048).map tickEvent)).blipCount = 2048 ∧
      (handleEvents exactOps startModel ((List.range 2048).map tickEvent)).blips.length
        = 2048 := by
  obtain ⟨hl, hc, hs⟩ := startModel_WF
  obtain ⟨h1, h2, h3, -⟩ := handleEvents_append exactOps ((List.range 2048).map tickEvent)
    startModel hl (by
      rw [newBlips_tickEvent, hc, List.length_map, List.length_range])
  rw [newBlips_tickEvent] at h1 h2
  rw [hs] at h1
  rw [hc, List.length_map, List.length_range] at h2
  exact ⟨by simpa using h1, by omega, h3⟩

/-- C8, as stated, fails. In the run of 2050 samples `30`, the sample `k` handled at
the time `k / 2048`, the first overflow (sample 2048) replaces the blip of sample 0, the
oldest; the second overflow, directly after it, replaces the blip of sample 2048, the newest
of those stored, and keeps the blip of sample 1, the oldest of those stored. -/
theorem second_overflow_keeps_oldest :
    (handleEvents exactOps startModel ((List.range 2049).map tickEvent)).stored
        = tickBlip 2048 :: (List.range' 1 2047).map tickBlip ∧
      (handleEvents exactOps startModel ((List.range 2050).map tickEvent)).stored
        = tickBlip 2049 :: (List.range' 1 2047).map tickBlip ∧
      tickBlip 1 ∈ (handleEvents exactOps startModel ((List.range 2050).map tickEvent)).stored ∧
      tickBlip 2048 ∉
        (handleEvents exactOps startModel ((List.range 2050).map tickEvent)).stored := by
  obtain ⟨f1, f2, f3⟩ := startModel_filled
  have htail : ((List.range 2048).map tickBlip).tail = (List.range' 1 2047).map tickBlip := by
    rw [List.range_eq_range', show (2048 : Nat) = 2047 + 1 from rfl, List.range'_succ]
    rfl
  have e1 : (List.range 2049).map tickEvent
      = (List.range 2048).map tickEvent ++ [tickEvent 2048] := by
    rw [show (2049 : Nat) = 2048 + 1 from rfl, List.range_succ, List.map_append]
    rfl
  have e2 : (List.range 2050).map tickEvent
      = ((List.range 2049).map tickEvent) ++ [tickEvent 2049] := by
    rw [show (2050 : Nat) = 2049 + 1 from rfl, List.range_succ, List.map_append]
    rfl
  obtain ⟨g1, g2, g3⟩ := handleEvent_full exactOps _ (tickEvent 2048) (tickBlip 2048)
    (blipOf_tickEvent _) f3 f2
  rw [← handleEvents_concat, ← e1, f1, htail] at g1
  rw [← handleEvents_concat, ← e1] at g2 g3
  obtain ⟨k1, -, -⟩ := handleEvent_full exactOps _ (tickEvent 2049) (tickBlip 2049)
    (blipOf_tickEvent _) g3 g2
  rw [← handleEvents_concat, ← e2, g1, List.tail_cons] at k1
  refine ⟨g1, k1, ?_, ?_⟩
  · rw [k1]
    refine List.mem_cons_of_mem _ (List.mem_map.mpr ⟨1, ?_, rfl⟩)
    rw [List.mem_range'_1]
    omega
  · rw [k1]
    intro h
    rcases List.mem_cons.mp h with h | h
    · have := tickBlip_injective h
      omega
    · obtain ⟨j, hj, hjk⟩ := List.mem_map.mp h
      rw [List.mem_range'_1] at hj
      have := tickBlip_injective hjk
      omega

theorem blipOf_accepted {F : Type} (ops : FloatOps F) (e : SampleEvent F) (cm : Int)
    (hacc : parse_distance_cm e.line = some cm) (hnn : 0 ≤ cm) :
    blipOf ops e = some ⟨e.sweep, ops.ofInt cm, e.now⟩ := by
  simp [blipOf, hacc, hnn]

/-- C8, amended. When a sample that is not negative is accepted while the blip
collection is full (2048 blips), the new blip replaces the blip at index 0, every other
stored blip is kept in its place and the count stays 2048.  A second overflow directly after
it replaces the blip the first one stored.  The blip at index 0 is the one inserted earliest
among those stored when the collection was filled from the start by appends alone: then the
overflow replaces the first blip appended. -/
theorem handleEvent_overwrites_index_zero {F : Type} (ops : FloatOps F) (m : Model F)
    (e : SampleEvent F) (cm : Int) (hlen : m.blips.length = 2048)
    (hfull : m.blipCount = 2048) (hacc : parse_distance_cm e.line = some cm)
    (hnn : 0 ≤ cm) :
    ((handleEvent ops m e).stored = ⟨e.sweep, ops.ofInt cm, e.now⟩ :: m.stored.tail ∧
      (handleEvent ops m e).blipCount = 2048) ∧
    (∀ (e2 : SampleEvent F) (cm2 : Int), parse_distance_cm e2.line = some cm2 → 0 ≤ cm2 →
      (handleEvent ops (handleEvent ops m e) e2).stored
        = ⟨e2.sweep, ops.ofInt cm2, e2.now⟩ :: m.stored.tail) ∧
    (∀ (init : List (Blip F)) (es : List (SampleEvent F)), init.length = 2048 →
      (newBlips ops es).length = 2048 →
      (handleEvents ops (initialModel ops init) es).stored = newBlips ops es ∧
      (handleEvents ops (initialModel ops init) (es ++ [e])).stored
        = ⟨e.sweep, ops.ofInt cm, e.now⟩ :: (newBlips ops es).tail) := by
  have hb := blipOf_accepted ops e cm hacc hnn
  obtain ⟨h1, h2, h3⟩ := handleEvent_full ops m e _ hb hlen hfull
  refine ⟨⟨h1, h2⟩, ?_, ?_⟩
  · intro e2 cm2 hacc2 hnn2
    obtain ⟨k1, -, -⟩ := handleEvent_full ops (handleEvent ops m e) e2 _
      (blipOf_accepted ops e2 cm2 hacc2 hnn2) h3 h2
    rw [k1, h1, List.tail_cons]
  · intro init es hinit hes
    obtain ⟨a1, a2, a3, -⟩ := handleEvents_append ops es (initialModel ops init) hinit
      (by rw [hes]; show 0 + 2048 ≤ 2048; omega)
    rw [initialModel_stored, List.nil_append] at a1
    have a2' : (handleEvents ops (initialModel ops init) es).blipCount = 2048 := by
      rw [a2, hes]
      show 0 + 2048 = 2048
      rfl
    obtain ⟨k1, -, -⟩ := handleEvent_full ops _ e _ hb a3 a2'
    rw [handleEvents_concat, k1, a1]
    exact ⟨rfl, rfl⟩

/-- The collection filled by the first 2048 samples of the run is full, and the next
sample is accepted with the value 30. -/
theorem handleEvent_overwrites_index_zero_witness :
    (handleEvent exactOps (handleEvents exactOps startModel ((List.range 2048).map tickEvent))
        (tickEvent 2048)).stored
      = ⟨(tickEvent 2048).sweep, exactOps.ofInt 30, (tickEvent 2048).now⟩ ::
          (handleEvents exactOps startModel ((List.range 2048).map tickEvent)).stored.tail ∧
    (handleEvent exactOps (handleEvents exactOps startModel ((List.range 2048).map tickEvent))
        (tickEvent 2048)).blipCount = 2048 :=
  (handleEvent_overwrites_index_zero exactOps
    (handleEvents exactOps startModel ((List.range 2048).map tickEvent)) (tickEvent 2048) 30
    startModel_filled.2.2 startModel_filled.2.1 (by decide) (by decide)).1

/-! ## Single-precision rounding -/

theorem roundHalfEven_le {x : ℚ} {n : Int} (h : x ≤ n) : roundHalfEven x ≤ n := by
  have hf : (⌊x⌋ : ℚ) ≤ x := Int.floor_le x
  have hfn : ⌊x⌋ ≤ n := Int.floor_le_floor h |>.trans (by simp)
  unfold roundHalfEven
  have hstep : ¬ (x - ⌊x⌋ < 1 / 2) → ⌊x⌋ + 1 ≤ n := by
    intro hc
    have h1 : (⌊x⌋ : ℚ) < n := by linarith
    have h2 : ⌊x⌋ < n := by exact_mod_cast h1
    omega
  split_ifs with h1 h2 h3
  · exact hfn
  · exact hstep h1
  · exact hfn
  · exact hstep h1

theorem le_roundHalfEven {x : ℚ} {n : Int} (h : (n : ℚ) ≤ x) : n ≤ roundHalfEven x := by
  have hfn : n ≤ ⌊x⌋ := Int.le_floor.mpr h
  unfold roundHalfEven
  split_ifs <;> omega

theorem roundHalfEven_eq_of_le_half {x : ℚ} {n : Int} (h0 : (n : ℚ) ≤ x)
    (h1 : x ≤ n + 1 / 2) (heven : n % 2 = 0) : roundHalfEven x = n := by
  have hfl : ⌊x⌋ = n := Int.floor_eq_iff.mpr ⟨h0, by linarith⟩
  unfold roundHalfEven
  rw [hfl]
  split_ifs with a b
  · rfl
  · exfalso; linarith
  · rfl

theorem roundHalfEven_eq_of_lt_half {x : ℚ} {n : Int} (h0 : (n : ℚ) ≤ x)
    (h1 : x < n + 1 / 2) : roundHalfEven x = n := by
  have hfl : ⌊x⌋ = n := Int.floor_eq_iff.mpr ⟨h0, by linarith⟩
  unfold roundHalfEven
  rw [hfl, if_pos (by linarith)]

theorem roundHalfEven_eq_of_gt_half {x : ℚ} {n : Int} (h0 : (n : ℚ) + 1 / 2 < x)
    (h1 : x < n + 1) : roundHalfEven x = n + 1 := by
  have hfl : ⌊x⌋ = n := Int.floor_eq_iff.mpr ⟨by linarith, h1⟩
  unfold roundHalfEven
  rw [hfl, if_neg (by linarith), if_pos (by linarith)]

theorem roundHalfEven_intCast (n : Int) : roundHalfEven (n : ℚ) = n :=
  roundHalfEven_eq_of_lt_half (le_refl _) (by linarith)

theorem log_abs_eq {q : ℚ} {l : Int} (hlo : (2 : ℚ) ^ l ≤ |q|) (hhi : |q| < 2 ^ (l + 1)) :
    Int.log 2 |q| = l := by
  have hpos : 0 < |q| := lt_of_lt_of_le (by positivity) hlo
  have h1 : l ≤ Int.log 2 |q| :=
    (Int.zpow_le_iff_le_log (by norm_num) hpos).mp (by exact_mod_cast hlo)
  have h2 : Int.log 2 |q| < l + 1 :=
    (Int.lt_zpow_iff_log_lt (by norm_num) hpos).mp (by exact_mod_cast hhi)
  omega

/-- The rounding of a number whose leading bit has the exponent `l` and whose quotient by
the unit in the last place rounds to `n`. -/
theorem roundF32_eval {q : ℚ} (l n : Int) (hlo : (2 : ℚ) ^ l ≤ |q|) (hhi : |q| < 2 ^ (l + 1))
    (hl : -126 ≤ l) (hn : roundHalfEven (q / 2 ^ (l - 23)) = n)
    (h1 : (n : ℚ) * 2 ^ (l - 23) < 2 ^ 128) (h2 : -2 ^ 128 < (n : ℚ) * 2 ^ (l - 23)) :
    roundF32 q = .fin ((n : ℚ) * 2 ^ (l - 23)) := by
  have hq : q ≠ 0 := by
    intro h
    rw [h, abs_zero] at hlo
    have : (0 : ℚ) < 2 ^ l := by positivity
    linarith
  have he : ulpExp q = l - 23 := by
    unfold ulpExp
    rw [log_abs_eq hlo hhi, max_eq_left hl]
  unfold roundF32
  simp only [hq, ↓reduceIte, he, hn]
  rw [if_neg (by linarith), if_neg (by linarith)]

theorem roundF32_zero : roundF32 0 = .fin 0 := by
  simp [roundF32]

theorem roundF32_one : roundF32 1 = .fin 1 := by
  have h := roundF32_eval (q := 1) 0 8388608 (by norm_num) (by norm_num) (by norm_num)
    (by
      have : (1 : ℚ) / 2 ^ ((0 : Int) - 23) = ((8388608 : Int) : ℚ) := by norm_num
      rw [this, roundHalfEven_intCast])
    (by norm_num) (by norm_num)
  rw [h]
  norm_num

theorem roundF32_neg_one : roundF32 (-1) = .fin (-1) := by
  have h := roundF32_eval (q := -1) 0 (-8388608) (by norm_num) (by norm_num) (by norm_num)
    (by
      have : (-1 : ℚ) / 2 ^ ((0 : Int) - 23) = ((-8388608 : Int) : ℚ) := by norm_num
      rw [this, roundHalfEven_intCast])
    (by norm_num) (by norm_num)
  rw [h]
  norm_num

theorem roundF32_two : roundF32 2 = .fin 2 := by
  have h := roundF32_eval (q := 2) 1 8388608 (by norm_num) (by norm_num) (by norm_num)
    (by
      have : (2 : ℚ) / 2 ^ ((1 : Int) - 23) = ((8388608 : Int) : ℚ) := by norm_num
      rw [this, roundHalfEven_intCast])
    (by norm_num) (by norm_num)
  rw [h]
  norm_num

theorem roundF32_80 : roundF32 80 = .fin 80 := by
  have h := roundF32_eval (q := 80) 6 10485760 (by norm_num) (by norm_num) (by norm_num)
    (by
      have : (80 : ℚ) / 2 ^ ((6 : Int) - 23) = ((10485760 : Int) : ℚ) := by norm_num
      rw [this, roundHalfEven_intCast])
    (by norm_num) (by norm_num)
  rw [h]
  norm_num

theorem roundF32_neg_80 : roundF32 (-80) = .fin (-80) := by
  have h := roundF32_eval (q := -80) 6 (-10485760) (by norm_num) (by norm_num) (by norm_num)
    (by
      have : (-80 : ℚ) / 2 ^ ((6 : Int) - 23) = ((-10485760 : Int) : ℚ) := by norm_num
      rw [this, roundHalfEven_intCast])
    (by norm_num) (by norm_num)
  rw [h]
  norm_num

theorem roundF32_180 : roundF32 180 = .fin 180 := by
  have h := roundF32_eval (q := 180) 7 11796480 (by norm_num) (by norm_num) (by norm_num)
    (by
      have : (180 : ℚ) / 2 ^ ((7 : Int) - 23) = ((11796480 : Int) : ℚ) := by norm_num
      rw [this, roundHalfEven_intCast])
    (by norm_num) (by norm_num)
  rw [h]
  norm_num

/-- The product `80 * 2^-23` is a binary32 number. -/
theorem roundF32_step_up : roundF32 (80 * (1 / 2 ^ 23)) = .fin (80 * (1 / 2 ^ 23)) := by
  have h := roundF32_eval (q := 80 * (1 / 2 ^ 23)) (-17) 10485760
    (by rw [abs_of_pos (by norm_num)]; norm_num)
    (by rw [abs_of_pos (by norm_num)]; norm_num) (by norm_num)
    (by
      have : (80 * (1 / 2 ^ 23) : ℚ) / 2 ^ ((-17 : Int) - 23) = ((10485760 : Int) : ℚ) := by
        norm_num
      rw [this, roundHalfEven_intCast])
    (by norm_num) (by norm_num)
  rw [h]
  norm_num

/-- The product `-80 * 2^-30` is a binary32 number. -/
theorem roundF32_step_down : roundF32 (-80 * (1 / 2 ^ 30)) = .fin (-80 * (1 / 2 ^ 30)) := by
  have h := roundF32_eval (q := -80 * (1 / 2 ^ 30)) (-24) (-10485760)
    (by rw [abs_of_neg (by norm_num)]; norm_num)
    (by rw [abs_of_neg (by norm_num)]; norm_num) (by norm_num)
    (by
      have : (-80 * (1 / 2 ^ 30) : ℚ) / 2 ^ ((-24 : Int) - 23) = ((-10485760 : Int) : ℚ) := by
        norm_num
      rw [this, roundHalfEven_intCast])
    (by norm_num) (by norm_num)
  rw [h]
  norm_num

/-- The sum `(180 - 2^-16) + 80 * 2^-23` lies between two binary32 numbers, nearer to 180:
it rounds to 180. -/
theorem roundF32_sum_up : roundF32 (180 - 1 / 2 ^ 16 + 80 * (1 / 2 ^ 23)) = .fin 180 := by
  have h := roundF32_eval (q := 180 - 1 / 2 ^ 16 + 80 * (1 / 2 ^ 23)) 7 (11796479 + 1)
    (by rw [abs_of_pos (by norm_num)]; norm_num)
    (by rw [abs_of_pos (by norm_num)]; norm_num) (by norm_num)
    (roundHalfEven_eq_of_gt_half (by norm_num) (by norm_num))
    (by norm_num) (by norm_num)
  rw [h]
  norm_num

/-- The sum `180 + (-80 * 2^-30)` lies between two binary32 numbers, nearer to 180: it
rounds to 180. -/
theorem roundF32_sum_down : roundF32 (180 + -80 * (1 / 2 ^ 30)) = .fin 180 := by
  have h := roundF32_eval (q := 180 + -80 * (1 / 2 ^ 30)) 7 (11796479 + 1)
    (by rw [abs_of_pos (by norm_num)]; norm_num)
    (by rw [abs_of_pos (by norm_num)]; norm_num) (by norm_num)
    (roundHalfEven_eq_of_gt_half (by norm_num) (by norm_num))
    (by norm_num) (by norm_num)
  rw [h]
  norm_num

/-! ## The sweep update -/

theorem f32ops_ofInt_180 : f32ops.ofInt 180 = .fin 180 := by
  show roundF32 ((180 : Int) : ℚ) = _
  rw [show ((180 : Int) : ℚ) = 180 by norm_num, roundF32_180]

theorem f32ops_ofInt_zero : f32ops.ofInt 0 = .fin 0 := by
  show roundF32 ((0 : Int) : ℚ) = _
  rw [show ((0 : Int) : ℚ) = 0 by norm_num, roundF32_zero]

theorem f32ops_ofInt_one : f32ops.ofInt 1 = .fin 1 := by
  show roundF32 ((1 : Int) : ℚ) = _
  rw [show ((1 : Int) : ℚ) = 1 by norm_num, roundF32_one]

theorem f32ops_ofInt_neg_one : f32ops.ofInt (-1) = .fin (-1) := by
  show roundF32 ((-1 : Int) : ℚ) = _
  rw [show ((-1 : Int) : ℚ) = -1 by norm_num, roundF32_neg_one]

theorem f32ops_ofInt_two : f32ops.ofInt 2 = .fin 2 := by
  show roundF32 ((2 : Int) : ℚ) = _
  rw [show ((2 : Int) : ℚ) = 2 by norm_num, roundF32_two]

/-- The sum the program computes from the angle `180 - 2^-16`, the direction +1, the speed
80 and the frame time `2^-23`. -/
theorem risingModel_sum :
    f32ops.add risingModel.sweep
        (f32ops.mul (f32ops.mul (f32ops.ofInt risingModel.sweepDir) (.fin 80))
          (.fin (1 / 2 ^ 23)))
      = .fin 180 := by
  show F32.add (.fin (180 - 1 / 2 ^ 16))
    (F32.mul (F32.mul (f32ops.ofInt 1) (.fin 80)) (.fin (1 / 2 ^ 23))) = _
  rw [f32ops_ofInt_one]
  show F32.add _ (F32.mul (roundF32 (1 * 80)) _) = _
  rw [one_mul, roundF32_80]
  show F32.add _ (roundF32 (80 * (1 / 2 ^ 23))) = _
  rw [roundF32_step_up]
  show roundF32 (180 - 1 / 2 ^ 16 + 80 * (1 / 2 ^ 23)) = _
  exact roundF32_sum_up

/-- The sum the program computes from the angle 180, the direction -1, the speed 80 and
the frame time `2^-30`. -/
theorem fallingModel_sum :
    f32ops.add fallingModel.sweep
        (f32ops.mul (f32ops.mul (f32ops.ofInt fallingModel.sweepDir) (.fin 80))
          (.fin (1 / 2 ^ 30)))
      = .fin 180 := by
  show F32.add (.fin 180)
    (F32.mul (F32.mul (f32ops.ofInt (-1)) (.fin 80)) (.fin (1 / 2 ^ 30))) = _
  rw [f32ops_ofInt_neg_one]
  show F32.add _ (F32.mul (roundF32 (-1 * 80)) _) = _
  rw [show (-1 * 80 : ℚ) = -80 by norm_num, roundF32_neg_80]
  show F32.add _ (roundF32 (-80 * (1 / 2 ^ 30))) = _
  rw [roundF32_step_down]
  show roundF32 (180 + -80 * (1 / 2 ^ 30)) = _
  exact roundF32_sum_down

/-- The sweep update when the computed sum passes the upper test. -/
theorem updateSweep_upper {F : Type} (ops : FloatOps F) (speed dt : F) (m : Model F)
    (h1 : ops.le (ops.ofInt 180)
      (ops.add m.sweep (ops.mul (ops.mul (ops.ofInt m.sweepDir) speed) dt)) = true)
    (h2 : ops.le (ops.ofInt 180) (ops.ofInt 0) = false) :
    updateSweep ops speed dt m = { m with sweep := ops.ofInt 180, sweepDir := -1 } := by
  unfold updateSweep
  simp only [h1, if_true, h2, Bool.false_eq_true, if_false]

/-- The sweep update when the computed sum passes the lower test only. -/
theorem updateSweep_lower {F : Type} (ops : FloatOps F) (speed dt : F) (m : Model F)
    (h1 : ops.le (ops.ofInt 180)
      (ops.add m.sweep (ops.mul (ops.mul (ops.ofInt m.sweepDir) speed) dt)) = false)
    (h2 : ops.le (ops.add m.sweep (ops.mul (ops.mul (ops.ofInt m.sweepDir) speed) dt))
      (ops.ofInt 0) = true) :
    updateSweep ops speed dt m = { m with sweep := ops.ofInt 0, sweepDir := 1 } := by
  unfold updateSweep
  simp only [h1, Bool.false_eq_true, if_false, h2, if_true]

/-- The sweep update when the computed sum passes neither test. -/
theorem updateSweep_inside {F : Type} (ops : FloatOps F) (speed dt : F) (m : Model F)
    (h1 : ops.le (ops.ofInt 180)
      (ops.add m.sweep (ops.mul (ops.mul (ops.ofInt m.sweepDir) speed) dt)) = false)
    (h2 : ops.le (ops.add m.sweep (ops.mul (ops.mul (ops.ofInt m.sweepDir) speed) dt))
      (ops.ofInt 0) = false) :
    updateSweep ops speed dt m
      = { m with
          sweep := ops.add m.sweep (ops.mul (ops.mul (ops.ofInt m.sweepDir) speed) dt) } := by
  unfold updateSweep
  simp only [h1, Bool.false_eq_true, if_false, h2]

theorem f32ops_le_180_zero : f32ops.le (f32ops.ofInt 180) (f32ops.ofInt 0) = false := by
  rw [f32ops_ofInt_180, f32ops_ofInt_zero]
  show F32.le (.fin 180) (.fin 0) = false
  simp [F32.le]

/-- The sweep update when the computed sum is the boundary 180: the angle is 180 and the
direction -1, whatever the direction was. -/
theorem updateSweep_at_180 (speed dt : F32) (m : Model F32)
    (hu : f32ops.add m.sweep (f32ops.mul (f32ops.mul (f32ops.ofInt m.sweepDir) speed) dt)
      = .fin 180) :
    (updateSweep f32ops speed dt m).sweep = .fin 180 ∧
      (updateSweep f32ops speed dt m).sweepDir = -1 := by
  have h1 : f32ops.le (f32ops.ofInt 180)
      (f32ops.add m.sweep (f32ops.mul (f32ops.mul (f32ops.ofInt m.sweepDir) speed) dt))
        = true := by
    rw [hu, f32ops_ofInt_180]
    show F32.le (.fin 180) (.fin 180) = true
    simp [F32.le]
  rw [updateSweep_upper f32ops speed dt m h1 f32ops_le_180_zero]
  exact ⟨f32ops_ofInt_180, rfl⟩

/-- C6, as stated, fails. From the angle `180 - 2^-16` with the direction +1, the speed 80
and the frame time `2^-23`, the unclamped angle `angle + direction * speed * dt` is below
180, yet the sum computed in single precision rounds to 180: the tick sets the angle to
180, not to the unclamped angle, and changes the direction.  From the angle 180 with the
direction -1 and the frame time `2^-30`, the computed sum is 180 again: it has reached the
boundary, and the direction after the tick is the direction before it. -/
theorem updateSweep_rounding_breaks_flip :
    ((updateSweep f32ops (.fin 80) (.fin (1 / 2 ^ 23)) risingModel).sweep = .fin 180 ∧
      (updateSweep f32ops (.fin 80) (.fin (1 / 2 ^ 23)) risingModel).sweepDir = -1 ∧
      risingModel.sweepDir = 1 ∧
      (0 : ℚ) < 180 - 1 / 2 ^ 16 + 1 * 80 * (1 / 2 ^ 23) ∧
      (180 : ℚ) - 1 / 2 ^ 16 + 1 * 80 * (1 / 2 ^ 23) < 180) ∧
    ((updateSweep f32ops (.fin 80) (.fin (1 / 2 ^ 30)) fallingModel).sweep = .fin 180 ∧
      (updateSweep f32ops (.fin 80) (.fin (1 / 2 ^ 30)) fallingModel).sweepDir = -1 ∧
      fallingModel.sweepDir = -1 ∧
      f32ops.le (f32ops.ofInt 180)
        (f32ops.add fallingModel.sweep
          (f32ops.mul (f32ops.mul (f32ops.ofInt fallingModel.sweepDir) (.fin 80))
            (.fin (1 / 2 ^ 30)))) = true ∧
      (180 : ℚ) + (-1) * 80 * (1 / 2 ^ 30) < 180) := by
  obtain ⟨a1, a2⟩ := updateSweep_at_180 (.fin 80) (.fin (1 / 2 ^ 23)) risingModel
    risingModel_sum
  obtain ⟨b1, b2⟩ := updateSweep_at_180 (.fin 80) (.fin (1 / 2 ^ 30)) fallingModel
    fallingModel_sum
  refine ⟨⟨a1, a2, rfl, by norm_num, by norm_num⟩, b1, b2, rfl, ?_, by norm_num⟩
  rw [fallingModel_sum, f32ops_ofInt_180]
  show F32.le (.fin 180) (.fin 180) = true
  simp [F32.le]

theorem roundF32_cases (q : ℚ) :
    (∃ r, roundF32 q = .fin r) ∨ roundF32 q = .pinf ∨ roundF32 q = .ninf := by
  unfold roundF32
  simp only []
  split_ifs
  · exact Or.inl ⟨0, rfl⟩
  · exact Or.inr (Or.inl rfl)
  · exact Or.inr (Or.inr rfl)
  · exact Or.inl ⟨_, rfl⟩

/-- With a finite angle, a direction +1 or -1 and a positive finite speed and frame time,
the sum the program computes is a finite number or an infinity, never NaN. -/
theorem sweep_sum_cases (a s d : ℚ) (dir : Int) (hdir : dir = 1 ∨ dir = -1) (hd : 0 < d) :
    (∃ x, f32ops.add (.fin a) (f32ops.mul (f32ops.mul (f32ops.ofInt dir) (.fin s)) (.fin d))
        = .fin x) ∨
      f32ops.add (.fin a) (f32ops.mul (f32ops.mul (f32ops.ofInt dir) (.fin s)) (.fin d))
        = .pinf ∨
      f32ops.add (.fin a) (f32ops.mul (f32ops.mul (f32ops.ofInt dir) (.fin s)) (.fin d))
        = .ninf := by
  have hc : ∃ c : ℚ, f32ops.ofInt dir = .fin c := by
    rcases hdir with rfl | rfl
    · exact ⟨1, f32ops_ofInt_one⟩
    · exact ⟨-1, f32ops_ofInt_neg_one⟩
  obtain ⟨c, hc⟩ := hc
  rw [hc]
  show (∃ x, F32.add (.fin a) (F32.mul (roundF32 (c * s)) (.fin d)) = .fin x) ∨
    F32.add (.fin a) (F32.mul (roundF32 (c * s)) (.fin d)) = .pinf ∨
    F32.add (.fin a) (F32.mul (roundF32 (c * s)) (.fin d)) = .ninf
  have hd0 : d ≠ 0 := ne_of_gt hd
  rcases roundF32_cases (c * s) with ⟨r1, h1⟩ | h1 | h1
  · rw [h1]
    show (∃ x, F32.add (.fin a) (roundF32 (r1 * d)) = .fin x) ∨
      F32.add (.fin a) (roundF32 (r1 * d)) = .pinf ∨
      F32.add (.fin a) (roundF32 (r1 * d)) = .ninf
    rcases roundF32_cases (r1 * d) with ⟨r2, h2⟩ | h2 | h2
    · rw [h2]
      exact roundF32_cases (a + r2)
    · rw [h2]
      exact Or.inr (Or.inl rfl)
    · rw [h2]
      exact Or.inr (Or.inr rfl)
  · rw [h1]
    have : F32.mul .pinf (.fin d) = .pinf := by
      simp [F32.mul, F32.mulInf, hd0, hd]
    rw [this]
    exact Or.inr (Or.inl rfl)
  · rw [h1]
    have : F32.mul .ninf (.fin d) = .ninf := by
      simp [F32.mul, F32.mulInf, hd0, hd]
    rw [this]
    exact Or.inr (Or.inr rfl)

/-- C6, amended. For every sweep state with a finite angle (in particular an angle in
[0, 180]) and a direction +1 or -1, and every tick with a finite speed (in particular a
positive one) and a positive finite frame time, let `u` be the value the program computes
in single precision for `angle + direction * speed * dt`.  The tick sets
the angle to `u` clamped to [0, 180]: to 180 when `u >= 180`, to 0 when `u <= 0`, to `u`
otherwise, so the angle never leaves [0, 180].  The direction after the tick is -1 in the
first case, +1 in the second and the direction before in the third; it differs from the
direction before exactly when `u >= 180` with the direction +1 or `u <= 0` with the
direction -1. -/
theorem updateSweep_single_precision (m : Model F32) (a s d : ℚ) (hm : m.sweep = .fin a)
    (hdir : m.sweepDir = 1 ∨ m.sweepDir = -1) (hd : 0 < d) :
    (∃ a', (updateSweep f32ops (.fin s) (.fin d) m).sweep = .fin a' ∧ 0 ≤ a' ∧ a' ≤ 180) ∧
    (f32ops.le (f32ops.ofInt 180)
        (f32ops.add m.sweep (f32ops.mul (f32ops.mul (f32ops.ofInt m.sweepDir) (.fin s))
          (.fin d))) = true →
      (updateSweep f32ops (.fin s) (.fin d) m).sweep = .fin 180 ∧
        (updateSweep f32ops (.fin s) (.fin d) m).sweepDir = -1) ∧
    (f32ops.le
        (f32ops.add m.sweep (f32ops.mul (f32ops.mul (f32ops.ofInt m.sweepDir) (.fin s))
          (.fin d))) (f32ops.ofInt 0) = true →
      (updateSweep f32ops (.fin s) (.fin d) m).sweep = .fin 0 ∧
        (updateSweep f32ops (.fin s) (.fin d) m).sweepDir = 1) ∧
    (f32ops.le (f32ops.ofInt 180)
        (f32ops.add m.sweep (f32ops.mul (f32ops.mul (f32ops.ofInt m.sweepDir) (.fin s))
          (.fin d))) = false →
      f32ops.le
        (f32ops.add m.sweep (f32ops.mul (f32ops.mul (f32ops.ofInt m.sweepDir) (.fin s))
          (.fin d))) (f32ops.ofInt 0) = false →
      (updateSweep f32ops (.fin s) (.fin d) m).sweep
          = f32ops.add m.sweep (f32ops.mul (f32ops.mul (f32ops.ofInt m.sweepDir) (.fin s))
              (.fin d)) ∧
        (updateSweep f32ops (.fin s) (.fin d) m).sweepDir = m.sweepDir) ∧
    ((updateSweep f32ops (.fin s) (.fin d) m).sweepDir ≠ m.sweepDir ↔
      (m.sweepDir = 1 ∧ f32ops.le (f32ops.ofInt 180)
        (f32ops.add m.sweep (f32ops.mul (f32ops.mul (f32ops.ofInt m.sweepDir) (.fin s))
          (.fin d))) = true) ∨
      (m.sweepDir = -1 ∧ f32ops.le
        (f32ops.add m.sweep (f32ops.mul (f32ops.mul (f32ops.ofInt m.sweepDir) (.fin s))
          (.fin d))) (f32ops.ofInt 0) = true)) := by
  have hcases := sweep_sum_cases a s d m.sweepDir hdir hd
  rw [← hm] at hcases
  generalize hu : f32ops.add m.sweep
    (f32ops.mul (f32ops.mul (f32ops.ofInt m.sweepDir) (.fin s)) (.fin d)) = u at hcases ⊢
  have hup : f32ops.le (f32ops.ofInt 180) u = true →
      updateSweep f32ops (.fin s) (.fin d) m
        = { m with sweep := f32ops.ofInt 180, sweepDir := -1 } := by
    intro h
    exact updateSweep_upper f32ops _ _ m (by rw [hu]; exact h) f32ops_le_180_zero
  have hlow : f32ops.le (f32ops.ofInt 180) u = false → f32ops.le u (f32ops.ofInt 0) = true →
      updateSweep f32ops (.fin s) (.fin d) m
        = { m with sweep := f32ops.ofInt 0, sweepDir := 1 } := by
    intro h1 h2
    exact updateSweep_lower f32ops _ _ m (by rw [hu]; exact h1) (by rw [hu]; exact h2)
  have hin : f32ops.le (f32ops.ofInt 180) u = false → f32ops.le u (f32ops.ofInt 0) = false →
      updateSweep f32ops (.fin s) (.fin d) m = { m with sweep := u } := by
    intro h1 h2
    rw [updateSweep_inside f32ops _ _ m (by rw [hu]; exact h1) (by rw [hu]; exact h2), hu]
  have hexcl : f32ops.le u (f32ops.ofInt 0) = true → f32ops.le (f32ops.ofInt 180) u = false := by
    rw [f32ops_ofInt_180, f32ops_ofInt_zero]
    rcases hcases with ⟨x, rfl⟩ | rfl | rfl
    · show F32.le (.fin x) (.fin 0) = true → F32.le (.fin 180) (.fin x) = false
      simp only [F32.le, decide_eq_true_eq, decide_eq_false_iff_not, not_le]
      intro h
      linarith
    · intro h
      exact absurd h (by simp [f32ops, F32.le])
    · intro _
      rfl
  have hrange : f32ops.le (f32ops.ofInt 180) u = false → f32ops.le u (f32ops.ofInt 0) = false →
      ∃ x, u = .fin x ∧ 0 ≤ x ∧ x ≤ 180 := by
    rw [f32ops_ofInt_180, f32ops_ofInt_zero]
    rcases hcases with ⟨x, rfl⟩ | rfl | rfl
    · show F32.le (.fin 180) (.fin x) = false → F32.le (.fin x) (.fin 0) = false → _
      simp only [F32.le, decide_eq_false_iff_not, not_le]
      intro h1 h2
      exact ⟨x, rfl, le_of_lt h2, le_of_lt h1⟩
    · intro h
      exact absurd h (by simp [f32ops, F32.le])
    · intro _ h
      exact absurd h (by simp [f32ops, F32.le])
  refine ⟨?_, ?_, ?_, ?_, ?_⟩
  · by_cases h1 : f32ops.le (f32ops.ofInt 180) u = true
    · rw [hup h1]
      exact ⟨180, f32ops_ofInt_180, by norm_num, le_refl _⟩
    · have h1 : f32ops.le (f32ops.ofInt 180) u = false := by simpa using h1
      by_cases h2 : f32ops.le u (f32ops.ofInt 0) = true
      · rw [hlow h1 h2]
        exact ⟨0, f32ops_ofInt_zero, le_refl _, by norm_num⟩
      · have h2 : f32ops.le u (f32ops.ofInt 0) = false := by simpa using h2
        rw [hin h1 h2]
        exact hrange h1 h2
  · intro h1
    rw [hup h1]
    exact ⟨f32ops_ofInt_180, rfl⟩
  · intro h2
    rw [hlow (hexcl h2) h2]
    exact ⟨f32ops_ofInt_zero, rfl⟩
  · intro h1 h2
    rw [hin h1 h2]
    exact ⟨rfl, rfl⟩
  · by_cases h1 : f32ops.le (f32ops.ofInt 180) u = true
    · rw [hup h1]
      have h2 : ¬ (f32ops.le u (f32ops.ofInt 0) = true) := by
        intro h2
        rw [hexcl h2] at h1
        exact absurd h1 (by simp)
      show (-1 : Int) ≠ m.sweepDir ↔ _
      rcases hdir with hd1 | hd1 <;> simp [hd1, h1, h2]
    · have h1 : f32ops.le (f32ops.ofInt 180) u = false := by simpa using h1
      by_cases h2 : f32ops.le u (f32ops.ofInt 0) = true
      · rw [hlow h1 h2]
        show (1 : Int) ≠ m.sweepDir ↔ _
        rcases hdir with hd1 | hd1 <;> simp [hd1, h1, h2]
      · have h2 : f32ops.le u (f32ops.ofInt 0) = false := by simpa using h2
        rw [hin h1 h2]
        show m.sweepDir ≠ m.sweepDir ↔ _
        simp [h1, h2]

/-- The state at the angle 90 with the direction +1, the speed 80 and the frame time 1/64
meet the hypotheses. -/
theorem updateSweep_single_precision_witness :
    ∃ a', (updateSweep f32ops (.fin 80) (.fin (1 / 64)) midModel).sweep = .fin a' ∧ 0 ≤ a' ∧
      a' ≤ 180 :=
  (updateSweep_single_precision midModel 90 80 (1 / 64) rfl (Or.inl rfl) (by norm_num)).1

/-! ## The age test in single precision -/

theorem succ_le_roundHalfEven {x : ℚ} {n : Int} (h : (n : ℚ) + 1 / 2 < x) :
    n + 1 ≤ roundHalfEven x := by
  have hfn : n ≤ ⌊x⌋ := Int.le_floor.mpr (by linarith)
  have hfl : (⌊x⌋ : ℚ) ≤ x := Int.floor_le x
  unfold roundHalfEven
  by_cases hlt : n < ⌊x⌋
  · split_ifs <;> omega
  · have he : ⌊x⌋ = n := by omega
    rw [he, if_neg (by linarith), if_pos (by linarith)]

theorem two_zpow_split (e j : Int) (hej : e ≤ j) :
    (2 : ℚ) ^ j = (((2 : Int) ^ (j - e).toNat : Int) : ℚ) * 2 ^ e := by
  have hk : ((j - e).toNat : Int) = j - e := Int.toNat_of_nonneg (by omega)
  have h2 : (2 : ℚ) ≠ 0 := by norm_num
  have : (((2 : Int) ^ (j - e).toNat : Int) : ℚ) = (2 : ℚ) ^ (j - e) := by
    rw [← hk, zpow_natCast]
    push_cast
    rw [hk]
  rw [this, ← zpow_add₀ h2]
  congr 1
  omega

theorem round_le_two_zpow (x : ℚ) (e j : Int) (hej : e ≤ j) (hx : x ≤ 2 ^ j) :
    (roundHalfEven (x / 2 ^ e) : ℚ) * 2 ^ e ≤ 2 ^ j := by
  have hpos : (0 : ℚ) < 2 ^ e := by positivity
  rw [two_zpow_split e j hej]
  apply mul_le_mul_of_nonneg_right _ (le_of_lt hpos)
  have : x / 2 ^ e ≤ (((2 : Int) ^ (j - e).toNat : Int) : ℚ) := by
    rw [div_le_iff₀ hpos, ← two_zpow_split e j hej]
    exact hx
  exact_mod_cast roundHalfEven_le this

theorem two_zpow_le_round (x : ℚ) (e j : Int) (hej : e ≤ j) (hx : 2 ^ j ≤ x) :
    (2 : ℚ) ^ j ≤ (roundHalfEven (x / 2 ^ e) : ℚ) * 2 ^ e := by
  have hpos : (0 : ℚ) < 2 ^ e := by positivity
  rw [two_zpow_split e j hej]
  apply mul_le_mul_of_nonneg_right _ (le_of_lt hpos)
  have : (((2 : Int) ^ (j - e).toNat : Int) : ℚ) ≤ x / 2 ^ e := by
    rw [le_div_iff₀ hpos, ← two_zpow_split e j hej]
    exact hx
  exact_mod_cast le_roundHalfEven this

theorem ulpExp_of_binade {x : ℚ} {l : Int} (hlo : (2 : ℚ) ^ l ≤ |x|) (hhi : |x| < 2 ^ (l + 1))
    (hl : -126 ≤ l) : ulpExp x = l - 23 := by
  unfold ulpExp
  rw [log_abs_eq hlo hhi, max_eq_left hl]

/-- The rounded value of a number that is at most 0 is at most 0. -/
theorem roundF32_nonpos {x : ℚ} (hx : x ≤ 0) : F32.le (roundF32 x) (.fin 2) = true := by
  unfold roundF32
  simp only []
  have hpos : (0 : ℚ) < 2 ^ ulpExp x := by positivity
  have hq : x / 2 ^ ulpExp x ≤ ((0 : Int) : ℚ) := by
    rw [div_le_iff₀ hpos]
    simpa using hx
  have hr : (roundHalfEven (x / 2 ^ ulpExp x) : ℚ) ≤ 0 := by
    exact_mod_cast roundHalfEven_le hq
  have hr2 : (roundHalfEven (x / 2 ^ ulpExp x) : ℚ) * 2 ^ ulpExp x ≤ 0 :=
    mul_nonpos_of_nonpos_of_nonneg hr (le_of_lt hpos)
  split_ifs with h0 h1 h2
  · simp [F32.le]
  · exfalso
    have : (0 : ℚ) < 2 ^ 128 := by positivity
    linarith
  · rfl
  · simp only [F32.le, decide_eq_true_eq]
    linarith

/-- A rounded value above 2 fails the test against 2. -/
theorem roundF32_not_le_two {x : ℚ} (hx : x ≠ 0)
    (hr : (2 : ℚ) < (roundHalfEven (x / 2 ^ ulpExp x) : ℚ) * 2 ^ ulpExp x) :
    F32.le (roundF32 x) (.fin 2) = false := by
  unfold roundF32
  simp only [hx, ↓reduceIte]
  split_ifs with h1 h2
  · rfl
  · exfalso
    have : (0 : ℚ) < 2 ^ 128 := by positivity
    linarith
  · simp only [F32.le, decide_eq_false_iff_not, not_le]
    exact hr

/-- A rounded value of at most 2 passes the test against 2. -/
theorem roundF32_le_two {x : ℚ} (hx : x ≠ 0)
    (hr : (roundHalfEven (x / 2 ^ ulpExp x) : ℚ) * 2 ^ ulpExp x ≤ 2) :
    F32.le (roundF32 x) (.fin 2) = true := by
  unfold roundF32
  simp only [hx, ↓reduceIte]
  split_ifs with h1 h2
  · exfalso
    have : (2 : ℚ) < 2 ^ 128 := by norm_num
    linarith
  · rfl
  · simp only [F32.le, decide_eq_true_eq]
    exact hr

/-- The test of a rounded value against 2: the numbers up to the midpoint `2 + 2^-23`
between 2 and the next binary32 number round to at most 2, the numbers above it do not. -/
theorem roundF32_le_two_iff (x : ℚ) :
    F32.le (roundF32 x) (.fin 2) = true ↔ x ≤ 2 + 1 / 2 ^ 23 := by
  by_cases hx0 : x ≤ 0
  · constructor
    · intro _
      have : (0 : ℚ) < 1 / 2 ^ 23 := by positivity
      linarith
    · intro _
      exact roundF32_nonpos hx0
  have hpos : 0 < x := lt_of_not_le hx0
  have hne : x ≠ 0 := ne_of_gt hpos
  have habs : |x| = x := abs_of_pos hpos
  by_cases hx2 : x ≤ 2
  · have hlog : Int.log 2 |x| < 2 :=
      (Int.lt_zpow_iff_log_lt (by norm_num) (by rw [habs]; exact hpos)).mp (by
        rw [habs]
        norm_num
        linarith)
    have he : ulpExp x ≤ 1 := by
      unfold ulpExp
      have := max_le (a := Int.log 2 |x|) (b := -126) (c := 1) (by omega) (by norm_num)
      omega
    have hr := round_le_two_zpow x (ulpExp x) 1 he (by norm_num; exact hx2)
    constructor
    · intro _
      have : (0 : ℚ) < 1 / 2 ^ 23 := by positivity
      linarith
    · intro _
      exact roundF32_le_two hne (by simpa using hr)
  have h2 : 2 < x := lt_of_not_le hx2
  by_cases hx4 : x < 4
  · have he : ulpExp x = 1 - 23 :=
      ulpExp_of_binade (l := 1) (by rw [habs]; norm_num; linarith)
        (by rw [habs]; norm_num; linarith) (by norm_num)
    by_cases hmid : x ≤ 2 + 1 / 2 ^ 23
    · have hn : roundHalfEven (x / 2 ^ ((1 : Int) - 23)) = 8388608 := by
        apply roundHalfEven_eq_of_le_half
        · norm_num
          linarith
        · norm_num
          norm_num at hmid
          linarith
        · norm_num
      constructor
      · intro _
        exact hmid
      · intro _
        apply roundF32_le_two hne
        rw [he, hn]
        norm_num
    · have hmid' : 2 + 1 / 2 ^ 23 < x := lt_of_not_le hmid
      have hn : (8388608 : Int) + 1 ≤ roundHalfEven (x / 2 ^ ((1 : Int) - 23)) := by
        apply succ_le_roundHalfEven
        norm_num
        norm_num at hmid'
        linarith
      have hn' : ((8388608 : Int) + 1 : ℚ) ≤ (roundHalfEven (x / 2 ^ ((1 : Int) - 23)) : ℚ) := by
        exact_mod_cast hn
      constructor
      · intro h
        have hf := roundF32_not_le_two hne (by
          rw [he]
          have hp : (0 : ℚ) < 2 ^ ((1 : Int) - 23) := by positivity
          have := mul_le_mul_of_nonneg_right hn' (le_of_lt hp)
          norm_num at this ⊢
          linarith)
        rw [hf] at h
        exact absurd h (by simp)
      · intro h
        exact absurd h hmid
  · have h4 : (4 : ℚ) ≤ x := le_of_not_lt hx4
    have hlog : 2 ≤ Int.log 2 |x| :=
      (Int.zpow_le_iff_le_log (by norm_num) (by rw [habs]; exact hpos)).mp (by
        rw [habs]
        norm_num
        linarith)
    have he : ulpExp x = Int.log 2 |x| - 23 := by
      unfold ulpExp
      rw [max_eq_left (by omega)]
    have hlo : (2 : ℚ) ^ Int.log 2 |x| ≤ x := by
      have h := Int.zpow_log_le_self (b := 2) (r := |x|) (by norm_num) (by rw [habs]; exact hpos)
      have h' : (2 : ℚ) ^ Int.log 2 |x| ≤ |x| := by exact_mod_cast h
      exact h'.trans (le_of_eq habs)
    have hr := two_zpow_le_round x (ulpExp x) (Int.log 2 |x|) (by omega) hlo
    have h4' : (4 : ℚ) ≤ 2 ^ Int.log 2 |x| := by
      have := zpow_le_zpow_right₀ (a := (2 : ℚ)) (by norm_num) hlog
      norm_num at this
      exact this
    constructor
    · intro h
      have hf := roundF32_not_le_two hne (by linarith)
      rw [hf] at h
      exact absurd h (by simp)
    · intro h
      have : (1 : ℚ) / 2 ^ 23 < 1 := by norm_num
      linarith

theorem expiryModel32_count : expiryModel32.blipCount ≤ expiryModel32.blips.length := by
  show 1 ≤ (_ :: List.replicate 2047 _).length
  rw [List.length_cons, List.length_replicate]
  omega

theorem expiryModel32_stored : expiryModel32.stored = [⟨.fin 0, .fin 30, .fin 0⟩] := by
  show List.take 1 (_ :: List.replicate 2047 _) = _
  rw [List.take_succ_cons, List.take_zero]

/-- The test of the purge in single precision, for a blip created at the finite time `T`
and the finite query time `t`. -/
theorem alive_f32 (t T : ℚ) (b : Blip F32) (hb : b.born = .fin T) :
    alive f32ops (.fin t) b = true ↔ t - T ≤ 2 + 1 / 2 ^ 23 := by
  unfold alive
  rw [f32ops_ofInt_two, hb]
  show F32.le (roundF32 (t + -T)) (.fin 2) = true ↔ _
  rw [roundF32_le_two_iff, sub_eq_add_neg]

/-- C7, as stated, fails. A blip created at the time 0 is still stored after the purge
at the time 2, although 2 is not below 0 plus the lifetime 2. -/
theorem purge_keeps_blip_at_lifetime :
    (purge f32ops (.fin 2) expiryModel32).stored = [⟨.fin 0, .fin 30, .fin 0⟩] ∧
      ¬ ((2 : ℚ) < 0 + 2) := by
  constructor
  · rw [(purge_stored f32ops (.fin 2) expiryModel32 expiryModel32_count).1,
      expiryModel32_stored]
    have h : alive f32ops (.fin 2) (⟨.fin 0, .fin 30, .fin 0⟩ : Blip F32) = true :=
      (alive_f32 2 0 _ rfl).mpr (by norm_num)
    simp [h]
  · norm_num

/-- C7, amended. For every blip collection and every query time `now`, the purge leaves
exactly the stored blips whose age `now - T`, as the loop computes it, is at most the
lifetime 2, in their original order, and `blipCount` is their number.  In the single
precision of the program the computed age of a blip created at the time `T` is at most 2
exactly when `now - T <= 2 + 2^-23`: the blip is present after the purge at every query
time up to `T + 2 + 2^-23`, in particular on `[T, T + 2]`, and absent at every query time
after `T + 2 + 2^-23`. -/
theorem purge_keeps_exactly_alive {F : Type} (ops : FloatOps F) (now : F) (m : Model F)
    (hcount : m.blipCount ≤ m.blips.length) :
    (purge ops now m).stored
        = m.stored.filter (fun b => ops.le (ops.sub now b.born) (ops.ofInt 2)) ∧
      (purge ops now m).blipCount = ((purge ops now m).stored).length ∧
      (∀ (m2 : Model F32) (t : ℚ), m2.blipCount ≤ m2.blips.length →
        ∀ b ∈ m2.stored, ∀ T : ℚ, b.born = .fin T →
          (b ∈ (purge f32ops (.fin t) m2).stored ↔ t - T ≤ 2 + 1 / 2 ^ 23)) := by
  obtain ⟨h1, h2, h3⟩ := purge_stored ops now m hcount
  refine ⟨h1, ?_, ?_⟩
  · simp only [Model.stored, List.length_take]
    omega
  · intro m2 t hc b hb T hT
    rw [(purge_stored f32ops (.fin t) m2 hc).1, List.mem_filter, alive_f32 t T b hT]
    exact ⟨fun h => h.2, fun h => ⟨hb, h⟩⟩

/-- The model with one blip created at the time 0 meets the hypothesis: in single
precision the blip is stored after the purge at the time 1. -/
theorem purge_keeps_exactly_alive_witness :
    (⟨.fin 0, .fin 30, .fin 0⟩ : Blip F32) ∈ (purge f32ops (.fin 1) expiryModel32).stored :=
  ((purge_keeps_exactly_alive f32ops (.fin 1) expiryModel32 expiryModel32_count).2.2
    expiryModel32 1 expiryModel32_count ⟨.fin 0, .fin 30, .fin 0⟩
    (by rw [expiryModel32_stored]; exact List.mem_singleton.mpr rfl) 0 rfl).mpr (by norm_num)

/-! ## The port scanner -/

end Radar
